import Mathlib

/-!
Verification development for the `p123linker` MoviePilot plugin
(`src/plugins.v2/p123linker/__init__.py`).

The Python source is shallowly embedded below: pure computations become Lean
functions over `Nat` / `String` / `List`, the remote drive and the local
filesystem become explicit data (a tree of items, a list of effects), and
Python `str` is modelled as `String` / `List Char` (a sequence of Unicode
code points, which is exactly what a Python `str` is).
-/

namespace P123

/-! ## Byte-level string utilities

`utf8Bytes` models Python `str.encode()` (UTF-8, code points below 0x80 are
single bytes, etc.).  `hexByte` / `hexOfBytes` model `bytes.hex()` /
`hashlib`'s lowercase `hexdigest`. -/

def utf8EncChar (c : Char) : List Nat :=
  let n := c.toNat
  if n < 0x80 then [n]
  else if n < 0x800 then [0xC0 + n / 64, 0x80 + n % 64]
  else if n < 0x10000 then
    [0xE0 + n / 4096, 0x80 + (n / 64) % 64, 0x80 + n % 64]
  else
    [0xF0 + n / 262144, 0x80 + (n / 4096) % 64, 0x80 + (n / 64) % 64,
      0x80 + n % 64]

def utf8Bytes (cs : List Char) : List Nat :=
  cs.flatMap utf8EncChar

def hexDigit (n : Nat) : Char :=
  if n < 10 then Char.ofNat (48 + n) else Char.ofNat (87 + n)

def hexByte (b : Nat) : List Char :=
  [hexDigit (b / 16 % 16), hexDigit (b % 16)]

def hexOfBytes (bs : List Nat) : List Char :=
  bs.flatMap hexByte

/-! ## MD5 (RFC 1321)

The source signs URLs with `hashlib.md5(...).hexdigest()`; this is the
standard algorithm, over `Nat` with arithmetic kept below `2 ^ 32`
explicitly. -/

def md5K : List Nat :=
  [0xd76aa478, 0xe8c7b756, 0x242070db, 0xc1bdceee,
   0xf57c0faf, 0x4787c62a, 0xa8304613, 0xfd469501,
   0x698098d8, 0x8b44f7af, 0xffff5bb1, 0x895cd7be,
   0x6b901122, 0xfd987193, 0xa679438e, 0x49b40821,
   0xf61e2562, 0xc040b340, 0x265e5a51, 0xe9b6c7aa,
   0xd62f105d, 0x02441453, 0xd8a1e681, 0xe7d3fbc8,
   0x21e1cde6, 0xc33707d6, 0xf4d50d87, 0x455a14ed,
   0xa9e3e905, 0xfcefa3f8, 0x676f02d9, 0x8d2a4c8a,
   0xfffa3942, 0x8771f681, 0x6d9d6122, 0xfde5380c,
   0xa4beea44, 0x4bdecfa9, 0xf6bb4b60, 0xbebfbc70,
   0x289b7ec6, 0xeaa127fa, 0xd4ef3085, 0x04881d05,
   0xd9d4d039, 0xe6db99e5, 0x1fa27cf8, 0xc4ac5665,
   0xf4292244, 0x432aff97, 0xab9423a7, 0xfc93a039,
   0x655b59c3, 0x8f0ccc92, 0xffeff47d, 0x85845dd1,
   0x6fa87e4f, 0xfe2ce6e0, 0xa3014314, 0x4e0811a1,
   0xf7537e82, 0xbd3af235, 0x2ad7d2bb, 0xeb86d391]

def md5S : List Nat :=
  [7, 12, 17, 22, 7, 12, 17, 22, 7, 12, 17, 22, 7, 12, 17, 22,
   5, 9, 14, 20, 5, 9, 14, 20, 5, 9, 14, 20, 5, 9, 14, 20,
   4, 11, 16, 23, 4, 11, 16, 23, 4, 11, 16, 23, 4, 11, 16, 23,
   6, 10, 15, 21, 6, 10, 15, 21, 6, 10, 15, 21, 6, 10, 15, 21]

def w32 : Nat := 2 ^ 32

/-- 32-bit left rotation, expressed arithmetically: for `x < 2 ^ 32` the two
summands occupy disjoint bit ranges. -/
def rotl32 (x c : Nat) : Nat :=
  (x * 2 ^ c) % w32 + x / 2 ^ (32 - c)

/-- bitwise complement on 32-bit values -/
def not32 (x : Nat) : Nat := w32 - 1 - x % w32

/-- number of zero bytes of padding: smallest `k` with
`(len + 1 + k) % 64 = 56` -/
def md5PadZeros (len : Nat) : Nat := (119 - len % 64) % 64

def md5Pad (msg : List Nat) : List Nat :=
  msg ++ [0x80] ++ List.replicate (md5PadZeros msg.length) 0 ++
    ((List.range 8).map fun i => msg.length * 8 % 2 ^ 64 / 256 ^ i % 256)

/-- 64-byte chunk `ch` as 16 little-endian 32-bit words -/
def md5Word (ch : List Nat) (j : Nat) : Nat :=
  ch.getD (4 * j) 0 + 256 * ch.getD (4 * j + 1) 0 +
    65536 * ch.getD (4 * j + 2) 0 + 16777216 * ch.getD (4 * j + 3) 0

/-- one of the 64 rounds on state `(a, b, c, d)` -/
def md5Round (ch : List Nat) (st : Nat × Nat × Nat × Nat) (i : Nat) :
    Nat × Nat × Nat × Nat :=
  let (a, b, c, d) := st
  let f :=
    if i < 16 then (b &&& c) ||| (not32 b &&& d)
    else if i < 32 then (d &&& b) ||| (not32 d &&& c)
    else if i < 48 then b ^^^ c ^^^ d
    else c ^^^ (b ||| not32 d)
  let g :=
    if i < 16 then i
    else if i < 32 then (5 * i + 1) % 16
    else if i < 48 then (3 * i + 5) % 16
    else 7 * i % 16
  let f' := (f + a + md5K.getD i 0 + md5Word ch g) % w32
  (d, (b + rotl32 f' (md5S.getD i 0)) % w32, b, c)

def md5Chunk (st : Nat × Nat × Nat × Nat) (ch : List Nat) :
    Nat × Nat × Nat × Nat :=
  let (a0, b0, c0, d0) := st
  let (a, b, c, d) := (List.range 64).foldl (md5Round ch) st
  ((a0 + a) % w32, (b0 + b) % w32, (c0 + c) % w32, (d0 + d) % w32)

def toChunksF : Nat → List Nat → List (List Nat)
  | 0, _ => []
  | _, [] => []
  | fuel + 1, l => l.take 64 :: toChunksF fuel (l.drop 64)

/-- split into 64-byte chunks (`l.length` steps of fuel always suffice,
since every step consumes a nonempty list) -/
def toChunks (l : List Nat) : List (List Nat) :=
  toChunksF l.length l

def le32Bytes (x : Nat) : List Nat :=
  (List.range 4).map fun i => x / 256 ^ i % 256

def md5Bytes (msg : List Nat) : List Nat :=
  let (a, b, c, d) :=
    (toChunks (md5Pad msg)).foldl md5Chunk
      (0x67452301, 0xefcdab89, 0x98badcfe, 0x10325476)
  le32Bytes a ++ le32Bytes b ++ le32Bytes c ++ le32Bytes d

/-- `hashlib.md5(s.encode()).hexdigest()` -/
def md5Hex (s : String) : String :=
  String.mk (hexOfBytes (md5Bytes (utf8Bytes s.data)))

/-! ## `urllib.parse.unquote` / `urllib.parse.quote`

`unquote` turns every `%XX` escape (two hex digits) into the byte `XX`,
UTF-8-decoding runs of bytes; other characters pass through.  We first
tokenise the string into bytes (ASCII characters and decoded escapes) and
non-ASCII characters, then decode byte runs.  On malformed UTF-8 the decoder
emits one U+FFFD per offending byte (CPython's `errors='replace'` can merge
several bytes into one replacement; no claim depends on malformed input). -/

def isHexChar (c : Char) : Bool :=
  c.isDigit || ('a' ≤ c && c ≤ 'f') || ('A' ≤ c && c ≤ 'F')

def hexVal (c : Char) : Nat :=
  if c.isDigit then c.toNat - 48
  else if 'a' ≤ c && c ≤ 'f' then c.toNat - 87
  else c.toNat - 55

def pctToks : List Char → List (Sum Nat Char)
  | [] => []
  | '%' :: h1 :: h2 :: rest =>
    if isHexChar h1 && isHexChar h2 then
      Sum.inl (hexVal h1 * 16 + hexVal h2) :: pctToks rest
    else Sum.inl 37 :: pctToks (h1 :: h2 :: rest)
  | '%' :: rest => Sum.inl 37 :: pctToks rest
  | c :: rest =>
    (if c.toNat < 128 then Sum.inl c.toNat else Sum.inr c) :: pctToks rest

def isCont (b : Nat) : Bool := 0x80 ≤ b && b ≤ 0xBF

def repChar : Char := Char.ofNat 0xFFFD

def decodeToksF : Nat → List (Sum Nat Char) → List Char
  | 0, _ => []
  | _, [] => []
  | fuel + 1, Sum.inr c :: rest => c :: decodeToksF fuel rest
  | fuel + 1, Sum.inl b :: rest =>
    if b < 0x80 then Char.ofNat b :: decodeToksF fuel rest
    else if 0xC2 ≤ b && b ≤ 0xDF then
      match rest with
      | Sum.inl b1 :: rest' =>
        if isCont b1 then
          Char.ofNat ((b - 0xC0) * 64 + (b1 - 0x80)) :: decodeToksF fuel rest'
        else repChar :: decodeToksF fuel rest
      | _ => repChar :: decodeToksF fuel rest
    else if 0xE0 ≤ b && b ≤ 0xEF then
      match rest with
      | Sum.inl b1 :: Sum.inl b2 :: rest' =>
        if (if b = 0xE0 then 0xA0 ≤ b1 && b1 ≤ 0xBF
            else if b = 0xED then 0x80 ≤ b1 && b1 ≤ 0x9F
            else isCont b1) && isCont b2 then
          Char.ofNat ((b - 0xE0) * 4096 + (b1 - 0x80) * 64 + (b2 - 0x80)) ::
            decodeToksF fuel rest'
        else repChar :: decodeToksF fuel rest
      | _ => repChar :: decodeToksF fuel rest
    else if 0xF0 ≤ b && b ≤ 0xF4 then
      match rest with
      | Sum.inl b1 :: Sum.inl b2 :: Sum.inl b3 :: rest' =>
        if (if b = 0xF0 then 0x90 ≤ b1 && b1 ≤ 0xBF
            else if b = 0xF4 then 0x80 ≤ b1 && b1 ≤ 0x8F
            else isCont b1) && isCont b2 && isCont b3 then
          Char.ofNat ((b - 0xF0) * 262144 + (b1 - 0x80) * 4096 +
              (b2 - 0x80) * 64 + (b3 - 0x80)) :: decodeToksF fuel rest'
        else repChar :: decodeToksF fuel rest
      | _ => repChar :: decodeToksF fuel rest
    else repChar :: decodeToksF fuel rest

/-- decode a token stream (each step consumes at least one token, so
`toks.length` steps of fuel always suffice) -/
def decodeToks (toks : List (Sum Nat Char)) : List Char :=
  decodeToksF toks.length toks

/-- `urllib.parse.unquote` -/
def percentDecode (s : String) : String :=
  String.mk (decodeToks (pctToks s.data))

def hexDigitUpper (n : Nat) : Char :=
  if n < 10 then Char.ofNat (48 + n) else Char.ofNat (55 + n)

/-- bytes kept verbatim by `quote(..., safe='/')`: unreserved plus `/` -/
def quoteSafe (b : Nat) : Bool :=
  (48 ≤ b && b ≤ 57) || (65 ≤ b && b ≤ 90) || (97 ≤ b && b ≤ 122) ||
    b = 95 || b = 46 || b = 45 || b = 126 || b = 47

/-- `urllib.parse.quote` with the default `safe='/'` -/
def pquote (s : String) : String :=
  String.mk <| (utf8Bytes s.data).flatMap fun b =>
    if quoteSafe b then [Char.ofNat b]
    else ['%', hexDigitUpper (b / 16 % 16), hexDigitUpper (b % 16)]

/-! ## Python `str` helpers -/

/-- `str.strip()` (no argument: whitespace) -/
def pyStrip (s : String) : String :=
  String.mk (((s.data.dropWhile Char.isWhitespace).reverse.dropWhile
    Char.isWhitespace).reverse)

/-- `str.strip('/')` -/
def pyStripSlash (s : String) : String :=
  String.mk (((s.data.dropWhile (· = '/')).reverse.dropWhile (· = '/')).reverse)

/-- `str.rstrip('/')` -/
def pyRstripSlash (s : String) : String :=
  String.mk ((s.data.reverse.dropWhile (· = '/')).reverse)

/-- `str.split(sep)` with a one-character separator: fields between
occurrences of `sep`, empty fields kept, `"" ↦ [""]` (same as Python). -/
def splitChar (sep : Char) : List Char → List (List Char)
  | [] => [[]]
  | c :: rest =>
    if c = sep then [] :: splitChar sep rest
    else
      match splitChar sep rest with
      | h :: t => (c :: h) :: t
      | [] => [[c]]

/-- `str.split(sep)` for a one-character separator string -/
def pySplit (s : String) (sep : Char) : List String :=
  (splitChar sep s.data).map String.mk

def splitOnceChar (sep : Char) : List Char → Option (List Char × List Char)
  | [] => none
  | c :: rest =>
    if c = sep then some ([], rest)
    else (splitOnceChar sep rest).map fun p => (c :: p.1, p.2)

/-- `str.split('#', 1)`: at most one split, at the first `#` -/
def pySplitHash1 (s : String) : List String :=
  match splitOnceChar '#' s.data with
  | none => [s]
  | some (a, b) => [String.mk a, String.mk b]

/-- `str.startswith(prefix_string)` -/
def pyStartsWith (pre s : String) : Bool :=
  List.isPrefixOf pre.data s.data

/-- `str.lower()` (ASCII case mapping; the configured extension lists and
file names the claims quantify over are ASCII) -/
def pyLower (s : String) : String :=
  String.mk (s.data.map Char.toLower)

/-! ## `p123linker._generate_auth_url` (source lines 1108-1166)

The two impure inputs are passed explicitly: `now` is the value of
`int(time.time())` and `nonce` the value of `random.randint(0, 2**31-1)`
drawn during the call.  The configuration guards at the top of the source
(`uid`/`secret_key`/`custom_domain` non-empty, which raise `ValueError`)
are established by the callers' preconditions; the function below is the
computation performed once they pass. -/

def generate_auth_url (uid secret_key custom_domain : String)
    (expire_minutes now nonce : Nat) (file_path : String) : String :=
  let expire_time := now + expire_minutes * 60
  let request_path := percentDecode ("/" ++ uid ++ "/" ++ file_path)
  let sign_str := request_path ++ "-" ++ toString expire_time ++ "-" ++
    toString nonce ++ "-" ++ uid ++ "-" ++ secret_key
  let sign := md5Hex sign_str
  let auth_key := toString expire_time ++ "-" ++ toString nonce ++ "-" ++
    uid ++ "-" ++ sign
  let domain := pyRstripSlash custom_domain
  let domain :=
    if pyStartsWith "http://" domain || pyStartsWith "https://" domain
    then domain else "https://" ++ domain
  domain ++ request_path ++ "?auth_key=" ++ auth_key

/-! ## `pathlib.PurePosixPath`

A path is an anchor (`""`, `"/"` or `"//"`: POSIX treats exactly two
leading slashes specially) together with its list of segments; parsing
drops empty and `"."` segments, as `pathlib` does. -/

structure PPath where
  anchor : String
  parts : List String
deriving DecidableEq, Repr

def leadSlashes : List Char → Nat
  | '/' :: rest => leadSlashes rest + 1
  | _ => 0

def anchorOf (s : String) : String :=
  match leadSlashes s.data with
  | 0 => ""
  | 2 => "//"
  | _ => "/"

def segsOf (s : String) : List String :=
  ((pySplit s '/').filter fun seg => seg ≠ "" && seg ≠ ".")

/-- `PurePosixPath(s)` -/
def parseP (s : String) : PPath :=
  ⟨anchorOf s, segsOf s⟩

/-- `p / q` (`PurePosixPath.__truediv__`): an absolute right operand
replaces the left one -/
def joinP (p q : PPath) : PPath :=
  if q.anchor = "" then ⟨p.anchor, p.parts ++ q.parts⟩ else q

/-- `p.relative_to(q)` (Python 3.12, no `walk_up`): defined exactly when
`q` is a prefix; raises `ValueError` (here `none`) otherwise -/
def relativeTo (p q : PPath) : Option PPath :=
  if p.anchor = q.anchor && q.parts.isPrefixOf p.parts then
    some ⟨"", p.parts.drop q.parts.length⟩
  else none

def joinSegs : List String → String
  | [] => ""
  | [s] => s
  | s :: rest => s ++ "/" ++ joinSegs rest

/-- `str(p)` -/
def renderP (p : PPath) : String :=
  if p.anchor = "" && p.parts = [] then "."
  else p.anchor ++ joinSegs p.parts

/-- `p.parent` -/
def parentP (p : PPath) : PPath :=
  ⟨p.anchor, p.parts.dropLast⟩

/-- `p.name` (`""` for an empty path) -/
def nameP (p : PPath) : String :=
  (p.parts.getLast?).getD ""

/-- `PurePosixPath(name).suffix` of a name: `name[i:]` for the last dot at
position `i` with `0 < i < len(name) - 1`, else `""` -/
def suffixOfName (name : String) : String :=
  match (name.data.reverse.takeWhile (· ≠ '.')).length with
  | 0 => ""   -- name ends in '.' (or is empty): no suffix
  | k =>
    if k + 1 < name.length ∧ name.data.contains '.' then
      String.mk ('.' :: (name.data.reverse.take k).reverse)
    else ""

/-- `p.suffix` -/
def suffixP (p : PPath) : String := suffixOfName (nameP p)

/-- `p.stem`: the final component without its suffix -/
def stemP (p : PPath) : String :=
  let n := nameP p
  String.mk (n.data.take (n.length - (suffixOfName n).length))

/-! ## The remote drive

One API item, with the fields the plugin reads (`item.get("UpdateTime", 0)`
is modelled by the `updateTime` field, `0` when the API omits it).
`type` is the raw `"Type"` field: the source computes
`is_dir = bool(item["Type"])`, i.e. `type ≠ 0`. -/

structure Item where
  fileName : String
  type : Nat
  fileId : Nat
  size : Nat
  etag : String
  s3KeyFlag : String
  updateTime : Nat
deriving DecidableEq, Repr

/-- A finite remote directory tree: each node is an item together with the
full listing of its children (the pagination loop of `iterdir` drains all
pages of a directory, so a directory's drained listing is modelled as one
list; `cons it ch rest` is the node `it` with children `ch`, followed by
its siblings `rest`). -/
inductive Forest where
  | nil
  | cons (item : Item) (children : Forest) (rest : Forest)
deriving DecidableEq, Repr

def fSize : Forest → Nat
  | .nil => 0
  | .cons _ ch rest => 1 + fSize ch + fSize rest

def isNilF : Forest → Bool
  | .nil => true
  | _ => false

/-- well-formed drive: an item with `Type = 0` (a file) has no children -/
def wfForest : Forest → Bool
  | .nil => true
  | .cons it ch rest => (it.type != 0 || isNilF ch) && wfForest ch && wfForest rest

/-- the directory listing as the API hands it out: items in order, each
with its subtree -/
def topItems : Forest → List (Item × Forest)
  | .nil => []
  | .cons it ch rest => (it, ch) :: topItems rest

/-! ## `iterdir` (source lines 33-105 and, identically, 284-357)

Breadth-first traversal with an explicit FIFO queue seeded with
`(parent_id, "")`.  A yielded dictionary is modelled by `Entry`; the file
fields (`size`, `md5`, `uri`) are `none` on directory entries, which the
source yields without them. -/

structure Entry where
  item : Item
  relpath : String
  is_dir : Bool
  id : Nat
  parent_id : Nat
  name : String
  size : Option Nat
  md5 : Option String
  uri : Option String
deriving DecidableEq, Repr

/-- `f"{current_path}/{name}" if current_path else name` -/
def itemPath (curPath name : String) : String :=
  if curPath = "" then name else curPath ++ "/" ++ name

def uriOf (it : Item) : String :=
  "123://" ++ pquote it.fileName ++ "|" ++ toString it.size ++ "|" ++
    it.etag ++ "?" ++ it.s3KeyFlag

def entryOf (pid : Nat) (curPath : String) (it : Item) : Entry :=
  let ipath := itemPath curPath it.fileName
  if it.type != 0 then
    ⟨it, ipath, true, it.fileId, pid, it.fileName, none, none, none⟩
  else
    ⟨it, ipath, false, it.fileId, pid, it.fileName, some it.size,
      some it.etag, some (uriOf it)⟩

/-- a queue element: the dequeued directory's id, its listing, and the
accumulated relative path -/
abbrev QEl : Type := Nat × Forest × String

/-- the entries yielded while one dequeued directory is processed
(directories are skipped when `only_file` is set; files always yielded) -/
def emitsOf (onlyFile : Bool) (pid : Nat) (path : String) : Forest → List Entry
  | .nil => []
  | .cons it _ rest =>
    (if it.type != 0 && onlyFile then [] else [entryOf pid path it]) ++
      emitsOf onlyFile pid path rest

/-- the queue elements appended while one dequeued directory is processed
(every subdirectory, in listing order, regardless of `only_file`) -/
def succsOf (pid : Nat) (path : String) : Forest → List QEl
  | .nil => []
  | .cons it ch rest =>
    (if it.type != 0 then [(it.fileId, ch, itemPath path it.fileName)] else [])
      ++ succsOf pid path rest

def qSize (q : List QEl) : Nat :=
  (q.map fun t => fSize t.2.1).sum

/-- the queue loop, with explicit fuel (so that the definition is
structurally recursive and computes by kernel reduction); `bfsMeasure q`
steps always suffice, see `bfsF_eq_bfsQ`. -/
def bfsF (onlyFile : Bool) : Nat → List QEl → List Entry
  | 0, _ => []
  | _ + 1, [] => []
  | fuel + 1, (pid, nodes, path) :: rest =>
    emitsOf onlyFile pid path nodes ++
      bfsF onlyFile fuel (rest ++ succsOf pid path nodes)

def bfsMeasure (q : List QEl) : Nat := 2 * qSize q + q.length

def bfsQ (onlyFile : Bool) (q : List QEl) : List Entry :=
  bfsF onlyFile (bfsMeasure q) q

/-- `iterdir(client, parent_id=root, only_file=o)` on a drive whose listing
under `root` is `f` -/
def iterdir (onlyFile : Bool) (root : Nat) (f : Forest) : List Entry :=
  bfsQ onlyFile [(root, f, "")]

/-- BFS level decomposition (fuel-based like `bfsF`): the entries yielded
for the whole current queue, then the levels of all their subdirectories -/
def levelsF (onlyFile : Bool) : Nat → List QEl → List (List Entry)
  | 0, _ => []
  | _ + 1, [] => []
  | fuel + 1, q =>
    (q.flatMap fun t => emitsOf onlyFile t.1 t.2.2 t.2.1) ::
      levelsF onlyFile fuel (q.flatMap fun t => succsOf t.1 t.2.2 t.2.1)

def levelsQ (onlyFile : Bool) (q : List QEl) : List (List Entry) :=
  levelsF onlyFile (bfsMeasure q) q

/-- Specification-side enumeration of a tree: every node exactly once, in
depth-first order, annotated with the slash-joined path of names from the
traversal root (no leading slash when the parent path is empty). -/
def enumF (pid : Nat) (path : String) : Forest → List Entry
  | .nil => []
  | .cons it ch rest =>
    entryOf pid path it ::
      (enumF it.fileId (itemPath path it.fileName) ch ++ enumF pid path rest)

/-! ## Remote root directory-id resolution (source lines 1234-1260 for
`full_sync_strm_files`, identically 1435-1461 for `incremental_sync_files`)

Each path level issues a single `fs_list` call with `limit 100, next 0`, so
only the first page — the first 100 items of the listing — is searched; the
first item there with the wanted name and a directory type is taken, and a
miss raises `ValueError` (modelled by `none`), aborting the pair. -/

def findDirFirstPage (part : String) (f : Forest) : Option (Nat × Forest) :=
  ((topItems f).take 100).findSome? fun p =>
    if p.1.fileName = part && p.1.type != 0 then some (p.1.fileId, p.2)
    else none

def resolveParts : Nat × Forest → List String → Option (Nat × Forest)
  | cur, [] => some cur
  | cur, part :: rest =>
    if part = "" then resolveParts cur rest
    else
      match findDirFirstPage part cur.2 with
      | some nxt => resolveParts nxt rest
      | none => none

/-! ## The sync engine (`full_sync_strm_files`, lines 1168-1345, and
`incremental_sync_files`, lines 1360-1553)

Configuration fields keep their source names; `""` models an unset string
option (Python `None` and `""` are both falsy in the guards).  The world
bundles the remote drive, an oracle for whether creating a pair's local
root directory succeeds (the one filesystem call made outside the per-pair
`try`, so its failure is a top-level exception), and the values drawn from
`time.time()` / `random.randint` while entries are signed.

Filesystem and persistence side effects are recorded as a list of
`Eff`s; downloads themselves are modelled as succeeding (a failed download
is a per-entry error and is caught and logged by the source). -/

structure Config where
  enabled : Bool
  uid : String
  secret_key : String
  custom_domain : String
  expire_time : Nat
  user_rmt_mediaext : String
  user_download_mediaext : String
  full_sync_strm_paths : String
  auto_download : Bool
  last_sync_time : Nat
deriving Repr

structure World where
  drive : Forest
  localRootOk : String → Bool
  now : Nat
  nonce : Nat

inductive Eff where
  | mkdirRoot (path : String)
  | mkdirTree (dir : PPath)
  | writeStrm (file : PPath) (content : String)
  | writeData (file : PPath) (item : Item)
  | persist (last_sync_time : Nat)
deriving DecidableEq, Repr

/-- `set(f".{ext.strip().lower()}" for ext in raw.split(','))` (membership
tests only, so the set is kept as a list) -/
def mediaExtsOf (raw : String) : List String :=
  (pySplit raw ',').map fun e => "." ++ pyLower (pyStrip e)

/-- `Path(filename).suffix.lower()` -/
def extOf (fileName : String) : String := pyLower (suffixP (parseP fileName))

/-- The three-way discrimination applied to every traversed file (source
lines 1283-1326): the streamable branch, the sidecar branch, the skip
branch. -/
inductive FClass where
  | streamable
  | sidecar
  | ignored
deriving DecidableEq, Repr

def classifyExt (mediaExts dataExts : List String) (fileName : String) :
    FClass :=
  if mediaExts.contains (extOf fileName) then .streamable
  else if dataExts.contains (extOf fileName) then .sidecar
  else .ignored

/-- per-entry work of the full-sync loop (source lines 1272-1330); a
`relative_to` failure raises and is swallowed by the per-entry handler -/
def entryEffsFull (cfg : Config) (w : World) (local_path pan : String)
    (e : Entry) : List Eff :=
  let file_ext := extOf e.item.fileName
  match relativeTo (parseP (pan ++ "/" ++ e.relpath)) (parseP pan) with
  | none => []
  | some relp =>
    let file_path := joinP (parseP local_path) relp
    let file_target_dir := parentP file_path
    Eff.mkdirTree file_target_dir ::
      (if (mediaExtsOf cfg.user_rmt_mediaext).contains file_ext then
        let file_name := stemP file_path ++ ".strm"
        let new_file_path := joinP file_target_dir (parseP file_name)
        let full_path := pyStripSlash (pan ++ "/" ++ e.relpath)
        let url := generate_auth_url cfg.uid cfg.secret_key cfg.custom_domain
          cfg.expire_time w.now w.nonce (pquote full_path)
        [Eff.writeStrm new_file_path url]
      else if cfg.auto_download &&
          (mediaExtsOf cfg.user_download_mediaext).contains file_ext then
        [Eff.writeData (joinP file_target_dir (parseP e.item.fileName)) e.item]
      else [])

/-- per-entry work of the incremental-sync loop (source lines 1474-1537):
identical to the full-sync body except for the `UpdateTime` guard at the
top, which skips the entry before any side effect -/
def entryEffsIncr (cfg : Config) (w : World) (T : Nat)
    (local_path pan : String) (e : Entry) : List Eff :=
  if e.item.updateTime ≤ T then []
  else
    let file_ext := extOf e.item.fileName
    match relativeTo (parseP (pan ++ "/" ++ e.relpath)) (parseP pan) with
    | none => []
    | some relp =>
      let file_path := joinP (parseP local_path) relp
      let file_target_dir := parentP file_path
      Eff.mkdirTree file_target_dir ::
        (if (mediaExtsOf cfg.user_rmt_mediaext).contains file_ext then
          let file_name := stemP file_path ++ ".strm"
          let new_file_path := joinP file_target_dir (parseP file_name)
          let full_path := pyStripSlash (pan ++ "/" ++ e.relpath)
          let url := generate_auth_url cfg.uid cfg.secret_key cfg.custom_domain
            cfg.expire_time w.now w.nonce (pquote full_path)
          [Eff.writeStrm new_file_path url]
        else if cfg.auto_download &&
            (mediaExtsOf cfg.user_download_mediaext).contains file_ext then
          [Eff.writeData (joinP file_target_dir (parseP e.item.fileName)) e.item]
        else [])

/-- one configured `local#remote` line (the loop body shared verbatim by
both passes, lines 1200-1334 / 1401-1541, parameterised by the per-entry
body): `none` models the one uncaught failure point, creating the local
root directory (line 1216, outside the pair's `try`). -/
def pairEffs (w : World) (entryF : String → String → Entry → List Eff)
    (p : String) : Option (List Eff) :=
  if pyStrip p = "" then some []
  else
    match pySplitHash1 p with
    | [local_path, pan_path] =>
      if w.localRootOk local_path then
        some (Eff.mkdirRoot local_path ::
          (let pan := pyStripSlash pan_path
           if pan = "" then []
           else
             match resolveParts (0, w.drive) (pySplit pan '/') with
             | none => []
             | some (pid, sub) =>
               (bfsQ true [(pid, sub, "")]).flatMap (entryF local_path pan)))
      else none
    | _ => some []

/-- the pair loop: a crash (`true` flag) aborts the remaining pairs but
keeps the effects already performed -/
def runPairs (w : World) (entryF : String → String → Entry → List Eff) :
    List String → List Eff × Bool
  | [] => ([], false)
  | p :: rest =>
    match pairEffs w entryF p with
    | none => ([], true)
    | some effs =>
      let (more, crashed) := runPairs w entryF rest
      (effs ++ more, crashed)

/-- a pass's outcome: the Python return value (`none` = `None`), the
effects, and the value of `self._last_sync_time` afterwards -/
structure PassOut where
  result : Option Bool
  effs : List Eff
  last_sync_time : Nat
deriving Repr

/-- the three guards at the top of both passes -/
def configOk (cfg : Config) : Bool :=
  cfg.enabled && cfg.full_sync_strm_paths != "" && cfg.uid != "" &&
    cfg.secret_key != ""

/-- `full_sync_strm_files`; `tEnd` is the value of `int(time.time())`
sampled at line 1338, after all pairs have been processed -/
def fullSync (cfg : Config) (w : World) (tEnd : Nat) : PassOut :=
  if !configOk cfg then ⟨none, [], cfg.last_sync_time⟩
  else
    match runPairs w (entryEffsFull cfg w)
        (pySplit (pyStrip cfg.full_sync_strm_paths) '\n') with
    | (effs, true) => ⟨some false, effs, cfg.last_sync_time⟩
    | (effs, false) => ⟨some true, effs ++ [Eff.persist tEnd], tEnd⟩

/-- `incremental_sync_files`; `tStart` is `int(time.time())` sampled at
line 1399, before any per-pair work, `tEnd` the end-of-pass clock used
only when the first-run branch delegates to `full_sync_strm_files` (which
then returns `None`, line 1382) -/
def incrementalSync (cfg : Config) (w : World) (tStart tEnd : Nat) :
    PassOut :=
  if !configOk cfg then ⟨none, [], cfg.last_sync_time⟩
  else if cfg.last_sync_time = 0 then
    let fo := fullSync cfg w tEnd
    ⟨none, fo.effs, fo.last_sync_time⟩
  else
    match runPairs w (entryEffsIncr cfg w cfg.last_sync_time)
        (pySplit (pyStrip cfg.full_sync_strm_paths) '\n') with
    | (effs, true) => ⟨some false, effs, cfg.last_sync_time⟩
    | (effs, false) => ⟨some true, effs ++ [Eff.persist tStart], tStart⟩

/-! ## Local filesystem end-state

Replaying the write effects over an initially empty mirror: later writes
overwrite earlier ones (`open(..., "w")` truncates). -/

inductive FileContent where
  | strm (content : String)
  | data (item : Item)
deriving DecidableEq, Repr

def applyEff (fs : List (PPath × FileContent)) : Eff →
    List (PPath × FileContent)
  | .writeStrm p c => fs.filter (fun kv => kv.1 != p) ++ [(p, .strm c)]
  | .writeData p it => fs.filter (fun kv => kv.1 != p) ++ [(p, .data it)]
  | _ => fs

def endState (effs : List Eff) : List (PPath × FileContent) :=
  effs.foldl applyEff []

/-! ## `FullSyncStrmHelper` (source lines 107-238)

The helper class at the top of the module (not instantiated by the plugin
code itself, but cited by the specification): its extension lists are built
*without* `.lower()` and compared against the raw `Path.suffix`, its
remote root is resolved through `StorageChain.get_file_item` (an external
resolver), and any resolution or traversal error makes
`generate_strm_files` return `False` immediately, skipping all remaining
configured pairs. -/

structure HelperCfg where
  user_rmt_mediaext : String
  user_download_mediaext : String
  server_address : String
  auto_download_mediainfo : Bool
  apiToken : String

structure HelperWorld where
  resolver : String → Option (Nat × Forest)
  downloadUrl : Item → String

/-- `[f".{ext.strip()}" for ext in raw.replace("，", ",").split(",")]` —
no lower-casing -/
def helperExts (raw : String) : List String :=
  (pySplit (String.mk (raw.data.map fun c => if c = '，' then ',' else c))
      ',').map fun e => "." ++ pyStrip e

def helperStrmUrl (hc : HelperCfg) (it : Item) : String :=
  pyRstripSlash hc.server_address ++
    "/api/v1/plugin/p123linker/redirect_url?apikey=" ++ hc.apiToken ++
    "&name=" ++ it.fileName ++ "&size=" ++ toString it.size ++ "&md5=" ++
    it.etag ++ "&s3_key_flag=" ++ it.s3KeyFlag

/-- one entry of `generate_strm_files` (lines 158-231); `none` models an
uncaught per-entry exception (there is no per-entry handler here) -/
def helperEntry (hc : HelperCfg) (hw : HelperWorld) (target pan : String)
    (e : Entry) : Option (List Eff) :=
  match relativeTo (parseP (pan ++ "/" ++ e.relpath)) (parseP pan) with
  | none => none
  | some relp =>
    let file_path := joinP (parseP target) relp
    let file_target_dir := parentP file_path
    let file_name := stemP file_path ++ ".strm"
    let new_file_path := joinP file_target_dir (parseP file_name)
    if hc.auto_download_mediainfo &&
        (helperExts hc.user_download_mediaext).contains (suffixP file_path)
        then
      if hw.downloadUrl e.item = "" then some []
      else some [Eff.mkdirTree (parentP file_path),
        Eff.writeData file_path e.item]
    else if !(helperExts hc.user_rmt_mediaext).contains (suffixP file_path)
        then some []
    else some [Eff.mkdirTree (parentP new_file_path),
      Eff.writeStrm new_file_path (helperStrmUrl hc e.item)]

def helperEntriesEffs (hc : HelperCfg) (hw : HelperWorld)
    (target pan : String) : List Entry → List Eff × Bool
  | [] => ([], false)
  | e :: es =>
    match helperEntry hc hw target pan e with
    | none => ([], true)
    | some effs =>
      let (more, bad) := helperEntriesEffs hc hw target pan es
      (effs ++ more, bad)

inductive HRes where
  | crash
  | fail (effs : List Eff)
  | ok (effs : List Eff)
deriving DecidableEq, Repr

def helperGo (hc : HelperCfg) (hw : HelperWorld) : List String → HRes
  | [] => .ok []
  | p :: rest =>
    if p = "" then helperGo hc hw rest
    else
      match pySplitHash1 p with
      | [target, pan] =>
        match hw.resolver pan with
        | none => .fail []
        | some (pid, sub) =>
          match helperEntriesEffs hc hw target pan
              (bfsQ true [(pid, sub, "")]) with
          | (effs, true) => .fail effs
          | (effs, false) =>
            match helperGo hc hw rest with
            | .ok more => .ok (effs ++ more)
            | .fail more => .fail (effs ++ more)
            | .crash => .crash
      | _ => .crash

/-- `FullSyncStrmHelper.generate_strm_files` -/
def generate_strm_files (hc : HelperCfg) (hw : HelperWorld)
    (full_sync_strm_paths : String) : HRes :=
  helperGo hc hw (pySplit full_sync_strm_paths '\n')

/-! ## Derived definitions used by the statements -/

/-- the DFS enumeration of one queue element's forest -/
def enumTriple (t : QEl) : List Entry := enumF t.1 t.2.2 t.2.1

/-- all entries yielded while the current queue (one BFS level) is
processed -/
def flatEmits (o : Bool) (q : List QEl) : List Entry :=
  q.flatMap fun t => emitsOf o t.1 t.2.2 t.2.1

/-- the next BFS level's queue -/
def flatSuccs (q : List QEl) : List QEl :=
  q.flatMap fun t => succsOf t.1 t.2.2 t.2.1

/-- the local target path of source lines 1278-1279:
`Path(local_root) / Path(pan + "/" + rel).relative_to(pan)` (`none` when
`relative_to` raises) -/
def resolveLocal (local_root pan rel : String) : Option PPath :=
  (relativeTo (parseP (pan ++ "/" ++ rel)) (parseP pan)).map
    (joinP (parseP local_root))

/-- resolve, then strip the `local_root` prefix again (the round-trip of
the spec's "Path round-trip" property) -/
def roundtripRel (local_root pan rel : String) : Option String :=
  (resolveLocal local_root pan rel).bind fun fp =>
    (relativeTo fp (parseP local_root)).map renderP

/-- a relative path in normal form: splitting on `/` yields only nonempty,
non-`"."` segments (no leading/trailing/double slash, no `"."`) -/
def isNormalRel (rel : String) : Bool :=
  (splitChar '/' rel.data).all fun seg => !seg.isEmpty && seg ≠ ['.']

/-- the remote root contains at least one character that is not `/` -/
def hasNonSlash (s : String) : Bool := s.data.any (· ≠ '/')

/-- the domain normalisation of `_generate_auth_url` (lines 1152-1154):
trailing slashes stripped, `https://` prepended unless a scheme is
present -/
def normDomain (d : String) : String :=
  let d' := pyRstripSlash d
  if pyStartsWith "http://" d' || pyStartsWith "https://" d' then d'
  else "https://" ++ d'

/-- `n` copies of an item (childless) in front of a forest, to build a
listing longer than one 100-item page -/
def replicateForest : Nat → Item → Forest → Forest
  | 0, _, tail => tail
  | n + 1, it, tail => .cons it .nil (replicateForest n it tail)

/-! ### Concrete fixtures used by witnesses and counterexamples -/

def itemDirD : Item := ⟨"d", 1, 2, 0, "", "", 50⟩

def itemA : Item := ⟨"a.mkv", 0, 3, 100, "h1", "k1", 150⟩

def itemB : Item := ⟨"b.mkv", 0, 4, 5, "h2", "k2", 250⟩

def itemC : Item := ⟨"c.srt", 0, 5, 7, "h3", "k3", 300⟩

/-- `d/ ├ b.mkv ├ c.srt` and, as siblings of `d`: `a.mkv` -/
def sampleTree : Forest :=
  .cons itemDirD (.cons itemB .nil (.cons itemC .nil .nil))
    (.cons itemA .nil .nil)

/-- a drive whose root listing is `m/ └ d/ └ sampleTree` -/
def sampleDrive : Forest :=
  .cons ⟨"m", 1, 10, 0, "", "", 0⟩
    (.cons ⟨"d", 1, 11, 0, "", "", 0⟩ sampleTree .nil) .nil

def sampleCfg : Config :=
  ⟨true, "123", "sk", "vip.123pan.cn", 1, "mkv,mp4", "srt,nfo", "/l#/m/d",
    false, 200⟩

def sampleWorld : World :=
  ⟨sampleDrive, fun _ => true, 1000, 42⟩

def sampleHelperCfg : HelperCfg := ⟨"mkv", "nfo", "http://mp", false, "tok"⟩

/-- helper world: `p1` cannot be resolved, `p2` lists a single media file -/
def sampleHelperWorld : HelperWorld :=
  ⟨fun s => if s = "p2" then some (5, .cons itemA .nil .nil) else none,
    fun _ => "u"⟩

/-! ## Facts about `Char.toLower` and `pyLower` -/

theorem charToNat_ofNat {n : Nat} (h : n.isValidChar) :
    (Char.ofNat n).toNat = n := by
  simp [Char.ofNat, h, Char.toNat, Char.ofNatAux, UInt32.toNat]

theorem charEq_of_toNat {c d : Char} (h : c.toNat = d.toNat) : c = d := by
  rw [← Char.ofNat_toNat c, ← Char.ofNat_toNat d, h]

theorem toLower_toNat (c : Char) : (Char.toLower c).toNat =
    if 65 ≤ c.toNat ∧ c.toNat ≤ 90 then c.toNat + 32 else c.toNat := by
  simp only [Char.toLower]
  by_cases h : 65 ≤ c.toNat ∧ c.toNat ≤ 90
  · rw [if_pos h, if_pos h, charToNat_ofNat (by left; omega)]
  · rw [if_neg h, if_neg h]

theorem toLower_idem (c : Char) :
    Char.toLower (Char.toLower c) = Char.toLower c := by
  apply charEq_of_toNat
  rw [toLower_toNat, toLower_toNat]
  split_ifs <;> omega

theorem toLower_eq_low {c d : Char} (hd : d.toNat < 65) :
    Char.toLower c = d ↔ c = d := by
  constructor
  · intro h
    have h' := congrArg Char.toNat h
    rw [toLower_toNat] at h'
    split_ifs at h' with hh
    · omega
    · exact charEq_of_toNat h'
  · intro h
    subst h
    apply charEq_of_toNat
    rw [toLower_toNat]
    rw [if_neg (by omega)]

theorem toLower_slash (c : Char) : Char.toLower c = '/' ↔ c = '/' :=
  toLower_eq_low (by decide)

theorem toLower_dot (c : Char) : Char.toLower c = '.' ↔ c = '.' :=
  toLower_eq_low (by decide)

theorem pyLower_data (s : String) : (pyLower s).data = s.data.map Char.toLower :=
  rfl

theorem stringMk_inj {a b : List Char} (h : String.mk a = String.mk b) :
    a = b := by
  injection h

theorem pyLower_mk (l : List Char) :
    pyLower (String.mk l) = String.mk (l.map Char.toLower) := rfl

theorem pyLower_eq_empty (s : String) : pyLower s = "" ↔ s = "" := by
  cases s with
  | mk l =>
    rw [pyLower_mk]
    constructor
    · intro h
      have := stringMk_inj h
      rw [List.map_eq_nil] at this
      rw [this]
    · intro h
      have := stringMk_inj h
      subst this
      rfl

theorem map_toLower_eq_dotlist (l : List Char) :
    l.map Char.toLower = ['.'] ↔ l = ['.'] := by
  cases l with
  | nil => simp
  | cons c rest =>
    cases rest with
    | nil => simp [toLower_dot]
    | cons d rest' => simp

theorem pyLower_eq_dot (s : String) : pyLower s = "." ↔ s = "." := by
  cases s with
  | mk l =>
    rw [pyLower_mk]
    constructor
    · intro h
      have := stringMk_inj h
      rw [map_toLower_eq_dotlist] at this
      rw [this]
    · intro h
      have := stringMk_inj h
      subst this
      rfl

theorem splitChar_ne_nil (sep : Char) (l : List Char) :
    splitChar sep l ≠ [] := by
  cases l with
  | nil => simp [splitChar]
  | cons c rest =>
    rw [splitChar]
    split
    · simp
    · split <;> simp_all

theorem splitChar_map_toLower (l : List Char) :
    splitChar '/' (l.map Char.toLower) =
      (splitChar '/' l).map (List.map Char.toLower) := by
  induction l with
  | nil => rfl
  | cons c rest ih =>
    by_cases hc : c = '/'
    · subst hc
      rw [List.map_cons, splitChar, splitChar]
      rw [if_pos (by decide), if_pos rfl, ih]
      rfl
    · rw [List.map_cons, splitChar, splitChar]
      rw [if_neg (fun h => hc ((toLower_slash c).mp h)), if_neg hc, ih]
      rcases h0 : splitChar '/' rest with _ | ⟨h₀, t₀⟩
      · exact absurd h0 (splitChar_ne_nil _ _)
      · rfl

theorem pySplit_pyLower (s : String) :
    pySplit (pyLower s) '/' = (pySplit s '/').map pyLower := by
  cases s with
  | mk l =>
    show (splitChar '/' (l.map Char.toLower)).map String.mk =
      ((splitChar '/' l).map String.mk).map pyLower
    rw [splitChar_map_toLower, List.map_map, List.map_map]
    rfl

theorem segsOf_pyLower (s : String) :
    segsOf (pyLower s) = (segsOf s).map pyLower := by
  rw [segsOf, segsOf, pySplit_pyLower, List.filter_map]
  congr 1
  apply List.filter_congr
  intro seg _
  simp only [Function.comp_apply, ne_eq, pyLower_eq_empty, pyLower_eq_dot]

theorem nameP_mk_parts (a : String) (parts : List String) :
    nameP ⟨a, parts⟩ = parts.getLast?.getD "" := rfl

theorem nameP_parseP_pyLower (s : String) :
    nameP (parseP (pyLower s)) = pyLower (nameP (parseP s)) := by
  show (segsOf (pyLower s)).getLast?.getD "" =
    pyLower ((segsOf s).getLast?.getD "")
  rw [segsOf_pyLower, List.getLast?_map]
  cases (segsOf s).getLast? <;> rfl

theorem contains_dot_map_toLower (l : List Char) :
    (l.map Char.toLower).contains '.' = l.contains '.' := by
  induction l with
  | nil => rfl
  | cons c rest ih =>
    simp only [List.map_cons, List.contains_cons, ih]
    congr 1
    rw [Bool.eq_iff_iff, beq_iff_eq, beq_iff_eq, eq_comm, toLower_dot, eq_comm]

theorem suffixOfName_pyLower (n : String) :
    suffixOfName (pyLower n) = pyLower (suffixOfName n) := by
  have hp : ((fun c => decide (c ≠ '.')) ∘ Char.toLower) =
      fun c => decide (c ≠ '.') := by
    funext c
    simp only [Function.comp_apply, ne_eq, decide_eq_decide]
    rw [toLower_dot]
  cases n with
  | mk l =>
    rw [pyLower_mk, suffixOfName, suffixOfName]
    simp only [← List.map_reverse]
    rw [List.takeWhile_map, hp, List.length_map]
    simp only [String.length, List.length_map, contains_dot_map_toLower,
      ← List.map_take]
    generalize (List.takeWhile (fun c => decide (c ≠ '.')) l.reverse).length = m
    cases m with
    | zero => rfl
    | succ k =>
      show (if k + 1 + 1 < l.length ∧ l.contains '.' = true then
          String.mk ('.' ::
            (List.map Char.toLower (List.take (k + 1) l.reverse)).reverse)
        else "") =
        pyLower (if k + 1 + 1 < l.length ∧ l.contains '.' = true then
          String.mk ('.' :: (List.take (k + 1) l.reverse).reverse) else "")
      by_cases hc : k + 1 + 1 < l.length ∧ l.contains '.' = true
      · rw [if_pos hc, if_pos hc, pyLower_mk, List.map_cons]
        have h1 : Char.toLower '.' = '.' := by decide
        rw [h1, List.map_reverse]
      · rw [if_neg hc, if_neg hc]
        rfl

theorem pyLower_idem (s : String) : pyLower (pyLower s) = pyLower s := by
  cases s with
  | mk l =>
    rw [pyLower_mk, pyLower_mk, List.map_map]
    congr 1
    apply List.map_congr_left
    intro c _
    exact toLower_idem c

theorem extOf_pyLower (n : String) : extOf (pyLower n) = extOf n := by
  rw [extOf, extOf, suffixP, suffixP, parseP, parseP]
  show pyLower (suffixOfName (nameP ⟨anchorOf (pyLower n), segsOf (pyLower n)⟩)) = _
  have : nameP ⟨anchorOf (pyLower n), segsOf (pyLower n)⟩ =
      pyLower (nameP ⟨anchorOf n, segsOf n⟩) := by
    rw [nameP_mk_parts, nameP_mk_parts, segsOf_pyLower, List.getLast?_map]
    cases (segsOf n).getLast? <;> rfl
  rw [this, suffixOfName_pyLower, pyLower_idem]

/-! ## BFS infrastructure: the fuel is always sufficient -/

theorem qSize_append (a b : List QEl) : qSize (a ++ b) = qSize a + qSize b := by
  rw [qSize, qSize, qSize, List.map_append, List.sum_append]

theorem qSize_cons (t : QEl) (q : List QEl) :
    qSize (t :: q) = fSize t.2.1 + qSize q := by
  rw [qSize, qSize, List.map_cons, List.sum_cons]

theorem succsOf_bound (pid : Nat) (path : String) (f : Forest) :
    2 * qSize (succsOf pid path f) + (succsOf pid path f).length ≤
      2 * fSize f := by
  induction f generalizing path with
  | nil => simp [succsOf, qSize]
  | cons it ch rest ihch ihrest =>
    rw [succsOf, fSize]
    by_cases h : (it.type != 0) = true
    · rw [if_pos h]
      have := ihrest path
      rw [List.cons_append, List.nil_append, qSize_cons, List.length_cons]
      simp only at this ⊢
      omega
    · rw [if_neg h, List.nil_append]
      have := ihrest path
      omega

theorem bfsMeasure_step (pid : Nat) (path : String) (nodes : Forest)
    (rest : List QEl) :
    bfsMeasure (rest ++ succsOf pid path nodes) <
      bfsMeasure ((pid, nodes, path) :: rest) := by
  rw [bfsMeasure, bfsMeasure, qSize_append, qSize_cons, List.length_append,
    List.length_cons]
  have := succsOf_bound pid path nodes
  simp only
  omega

theorem bfsF_congr (o : Bool) :
    ∀ f1 f2 q, bfsMeasure q ≤ f1 → bfsMeasure q ≤ f2 →
      bfsF o f1 q = bfsF o f2 q := by
  intro f1
  induction f1 with
  | zero =>
    intro f2 q h1 _
    cases q with
    | nil => cases f2 <;> rfl
    | cons t rest =>
      rw [bfsMeasure, List.length_cons] at h1
      omega
  | succ n ih =>
    intro f2 q h1 h2
    cases q with
    | nil => cases f2 <;> rfl
    | cons t rest =>
      obtain ⟨pid, nodes, path⟩ := t
      cases f2 with
      | zero =>
        rw [bfsMeasure, List.length_cons] at h2
        omega
      | succ m =>
        rw [bfsF, bfsF]
        congr 1
        have hstep := bfsMeasure_step pid path nodes rest
        exact ih m (rest ++ succsOf pid path nodes) (by omega) (by omega)

theorem bfsQ_nil (o : Bool) : bfsQ o [] = [] := rfl

theorem bfsQ_cons (o : Bool) (pid : Nat) (nodes : Forest) (path : String)
    (rest : List QEl) :
    bfsQ o ((pid, nodes, path) :: rest) =
      emitsOf o pid path nodes ++ bfsQ o (rest ++ succsOf pid path nodes) := by
  have hge : 1 ≤ bfsMeasure ((pid, nodes, path) :: rest) := by
    rw [bfsMeasure, List.length_cons]
    omega
  rw [bfsQ]
  rw [show bfsMeasure ((pid, nodes, path) :: rest) =
    (bfsMeasure ((pid, nodes, path) :: rest) - 1) + 1 by omega]
  rw [bfsF]
  congr 1
  rw [bfsQ]
  apply bfsF_congr
  · have := bfsMeasure_step pid path nodes rest
    omega
  · exact le_refl _

theorem flatSuccs_bound (q : List QEl) :
    2 * qSize (flatSuccs q) + (flatSuccs q).length ≤ 2 * qSize q := by
  induction q with
  | nil => simp [flatSuccs, qSize]
  | cons t rest ih =>
    obtain ⟨pid, nodes, path⟩ := t
    rw [flatSuccs] at ih ⊢
    rw [List.flatMap_cons, qSize_append, qSize_cons, List.length_append]
    have := succsOf_bound pid path nodes
    simp only at this ⊢
    omega

theorem bfsMeasure_flatSuccs (q : List QEl) (h : q ≠ []) :
    bfsMeasure (flatSuccs q) < bfsMeasure q := by
  have h1 := flatSuccs_bound q
  have h2 : 1 ≤ q.length := by
    cases q with
    | nil => exact absurd rfl h
    | cons a b => simp
  rw [bfsMeasure, bfsMeasure]
  omega

theorem levelsF_congr (o : Bool) :
    ∀ f1 f2 q, bfsMeasure q ≤ f1 → bfsMeasure q ≤ f2 →
      levelsF o f1 q = levelsF o f2 q := by
  intro f1
  induction f1 with
  | zero =>
    intro f2 q h1 _
    cases q with
    | nil => cases f2 <;> rfl
    | cons t rest =>
      rw [bfsMeasure, List.length_cons] at h1
      omega
  | succ n ih =>
    intro f2 q h1 h2
    cases q with
    | nil => cases f2 <;> rfl
    | cons t rest =>
      cases f2 with
      | zero =>
        rw [bfsMeasure, List.length_cons] at h2
        omega
      | succ m =>
        rw [levelsF, levelsF]
        · congr 1
          have hstep := bfsMeasure_flatSuccs (t :: rest) (by simp)
          rw [show (t :: rest).flatMap (fun t => succsOf t.1 t.2.2 t.2.1) =
            flatSuccs (t :: rest) from rfl]
          exact ih m (flatSuccs (t :: rest)) (by omega) (by omega)
        · intro hfalse
          exact List.cons_ne_nil _ _ hfalse
        · intro hfalse
          exact List.cons_ne_nil _ _ hfalse

theorem levelsQ_cons (o : Bool) (q : List QEl) (h : q ≠ []) :
    levelsQ o q = flatEmits o q :: levelsQ o (flatSuccs q) := by
  have hge : 1 ≤ bfsMeasure q := by
    cases q with
    | nil => exact absurd rfl h
    | cons a b =>
      rw [bfsMeasure, List.length_cons]
      omega
  rw [levelsQ, show bfsMeasure q = (bfsMeasure q - 1) + 1 by omega]
  cases q with
  | nil => exact absurd rfl h
  | cons t rest =>
    rw [levelsF]
    · congr 1
      rw [levelsQ]
      apply levelsF_congr
      · have := bfsMeasure_flatSuccs (t :: rest) (by simp)
        rw [show (t :: rest).flatMap (fun t => succsOf t.1 t.2.2 t.2.1) =
          flatSuccs (t :: rest) from rfl]
        omega
      · exact le_refl _
    · intro hfalse
      exact List.cons_ne_nil _ _ hfalse

theorem bfsQ_append (o : Bool) :
    ∀ q1 q2, bfsQ o (q1 ++ q2) = flatEmits o q1 ++ bfsQ o (q2 ++ flatSuccs q1) := by
  intro q1
  induction q1 with
  | nil =>
    intro q2
    simp [flatEmits, flatSuccs]
  | cons t rest ih =>
    intro q2
    obtain ⟨pid, nodes, path⟩ := t
    rw [List.cons_append, bfsQ_cons, List.append_assoc,
      ih (q2 ++ succsOf pid path nodes)]
    simp [flatEmits, flatSuccs, List.append_assoc]

theorem bfsQ_step (o : Bool) (q : List QEl) :
    bfsQ o q = flatEmits o q ++ bfsQ o (flatSuccs q) := by
  have := bfsQ_append o q []
  simpa using this

theorem bfsQ_eq_join_levels (o : Bool) (q : List QEl) :
    bfsQ o q = (levelsQ o q).join := by
  by_cases h : q = []
  · subst h
    rfl
  · rw [bfsQ_step, levelsQ_cons o q h]
    show flatEmits o q ++ bfsQ o (flatSuccs q) =
      flatEmits o q ++ (levelsQ o (flatSuccs q)).join
    congr 1
    exact bfsQ_eq_join_levels o (flatSuccs q)
termination_by bfsMeasure q
decreasing_by exact bfsMeasure_flatSuccs q h

/-! ## BFS coverage: permutation with the DFS enumeration, and the
`only_file` filter -/

theorem entryOf_is_dir (pid : Nat) (path : String) (it : Item) :
    (entryOf pid path it).is_dir = (it.type != 0) := by
  rw [entryOf]
  by_cases h : (it.type != 0) = true
  · rw [if_pos h, h]
  · rw [if_neg h]
    simp only [Bool.not_eq_true] at h
    rw [h]

theorem wfForest_cons {it : Item} {ch rest : Forest}
    (h : wfForest (.cons it ch rest) = true) :
    ((it.type != 0) = true ∨ ch = .nil) ∧ wfForest ch = true ∧
      wfForest rest = true := by
  rw [wfForest, Bool.and_eq_true, Bool.and_eq_true, Bool.or_eq_true] at h
  refine ⟨?_, h.1.2, h.2⟩
  rcases h.1.1 with h1 | h1
  · exact Or.inl h1
  · right
    cases ch with
    | nil => rfl
    | cons a b c => simp [isNilF] at h1

theorem wf_succsOf {f : Forest} (pid : Nat) (path : String)
    (hwf : wfForest f = true) :
    ∀ t ∈ succsOf pid path f, wfForest t.2.1 = true := by
  induction f generalizing path with
  | nil => intro t ht; simp [succsOf] at ht
  | cons it ch rest ihch ihrest =>
    intro t ht
    obtain ⟨hor, hch, hrest⟩ := wfForest_cons hwf
    rw [succsOf] at ht
    rcases List.mem_append.mp ht with h1 | h1
    · by_cases hd : (it.type != 0) = true
      · rw [if_pos hd, List.mem_singleton] at h1
        subst h1
        exact hch
      · rw [if_neg hd] at h1
        simp at h1
    · exact ihrest path hrest t h1

theorem emitsOf_false (pid : Nat) (path : String) (it : Item)
    (ch rest : Forest) :
    emitsOf false pid path (.cons it ch rest) =
      entryOf pid path it :: emitsOf false pid path rest := by
  rw [emitsOf, Bool.and_false]
  rfl

theorem emits_succs_perm (pid : Nat) (path : String) (f : Forest)
    (hwf : wfForest f = true) :
    (emitsOf false pid path f ++
      (succsOf pid path f).flatMap enumTriple).Perm (enumF pid path f) := by
  induction f generalizing path with
  | nil => simp [emitsOf, succsOf, enumF]
  | cons it ch rest ihch ihrest =>
    obtain ⟨hor, hch, hrest⟩ := wfForest_cons hwf
    rw [emitsOf_false, succsOf, enumF, List.flatMap_append, List.cons_append]
    by_cases hd : (it.type != 0) = true
    · rw [if_pos hd]
      refine List.Perm.cons _ ?_
      have hmid : (emitsOf false pid path rest ++
          ([(it.fileId, ch, itemPath path it.fileName)].flatMap enumTriple ++
            (succsOf pid path rest).flatMap enumTriple)).Perm
          (([(it.fileId, ch, itemPath path it.fileName)].flatMap enumTriple) ++
            (emitsOf false pid path rest ++
              (succsOf pid path rest).flatMap enumTriple)) := by
        rw [← List.append_assoc, ← List.append_assoc]
        exact List.Perm.append_right _ (List.perm_append_comm)
      refine hmid.trans ?_
      simp only [List.flatMap_cons, List.flatMap_nil, List.append_nil]
      exact List.Perm.append_left _ (ihrest path hrest)
    · rw [if_neg hd]
      refine List.Perm.cons _ ?_
      have hnil : ch = .nil := by
        rcases hor with h | h
        · exact absurd h hd
        · exact h
      subst hnil
      simp only [List.nil_flatMap, List.nil_append,
        show enumF it.fileId (itemPath path it.fileName) .nil = [] from rfl]
      exact ihrest path hrest

theorem bfsQ_perm_enum :
    ∀ (q : List QEl), (∀ t ∈ q, wfForest t.2.1 = true) →
      (bfsQ false q).Perm (q.flatMap enumTriple)
  | [], _ => by rfl
  | (pid, nodes, path) :: rest, hwf => by
    rw [bfsQ_cons, List.flatMap_cons]
    have hwfhead : wfForest nodes = true := hwf _ (List.mem_cons_self _ _)
    have hwf' : ∀ t ∈ rest ++ succsOf pid path nodes,
        wfForest t.2.1 = true := by
      intro t ht
      rcases List.mem_append.mp ht with h1 | h1
      · exact hwf t (List.mem_cons_of_mem _ h1)
      · exact wf_succsOf pid path hwfhead t h1
    have ih := bfsQ_perm_enum (rest ++ succsOf pid path nodes) hwf'
    refine (List.Perm.append_left _ ih).trans ?_
    rw [List.flatMap_append]
    have hswap : (emitsOf false pid path nodes ++
        (rest.flatMap enumTriple ++
          (succsOf pid path nodes).flatMap enumTriple)).Perm
        (emitsOf false pid path nodes ++
          ((succsOf pid path nodes).flatMap enumTriple ++
            rest.flatMap enumTriple)) :=
      List.Perm.append_left _ (List.perm_append_comm)
    refine hswap.trans ?_
    rw [← List.append_assoc]
    exact List.Perm.append_right _ (emits_succs_perm pid path nodes hwfhead)
termination_by q => bfsMeasure q
decreasing_by exact bfsMeasure_step pid path nodes rest

theorem emitsOf_true_filter (pid : Nat) (path : String) (f : Forest) :
    emitsOf true pid path f =
      (emitsOf false pid path f).filter (fun e => !e.is_dir) := by
  induction f generalizing path with
  | nil => rfl
  | cons it ch rest ihch ihrest =>
    rw [emitsOf_false, emitsOf, List.filter_cons]
    by_cases hd : (it.type != 0) = true
    · rw [hd]
      simp only [Bool.and_true, entryOf_is_dir, hd, Bool.not_true,
        if_neg (by simp : ¬(false = true))]
      rw [ihrest path]
      rfl
    · simp only [Bool.not_eq_true] at hd
      rw [hd]
      simp only [Bool.false_and, entryOf_is_dir, hd, Bool.not_false,
        if_pos rfl]
      rw [ihrest path]
      rfl

theorem bfsQ_true_filter :
    ∀ (q : List QEl), bfsQ true q = (bfsQ false q).filter (fun e => !e.is_dir)
  | [] => rfl
  | (pid, nodes, path) :: rest => by
    rw [bfsQ_cons, bfsQ_cons, List.filter_append, emitsOf_true_filter]
    congr 1
    exact bfsQ_true_filter (rest ++ succsOf pid path nodes)
termination_by q => bfsMeasure q
decreasing_by exact bfsMeasure_step pid path nodes rest

/-! ## The claims -/

/-- C2: for every finite well-formed remote directory tree, the traversal
started at `(root_id, "")` with a FIFO queue visits every node exactly once
(its yield sequence with `only_files = false` is a permutation of the
tree's node enumeration `enumF`, whose entries carry `relative_path` equal
to the slash-joined path of names from the traversal root, with no leading
slash when the parent path is empty), yields directories only when
`only_files` is false (with `only_files = true` the yield sequence is
exactly the non-directory sublist, so every file is still yielded), and
yields in BFS level order (the sequence is the concatenation of the BFS
levels). -/
theorem c2_iterdir_bfs_coverage (root : Nat) (f : Forest)
    (h : wfForest f = true) :
    (iterdir false root f).Perm (enumF root "" f) ∧
    iterdir true root f = (iterdir false root f).filter (fun e => !e.is_dir) ∧
    iterdir false root f = (levelsQ false [(root, f, "")]).join := by
  refine ⟨?_, ?_, ?_⟩
  · have := bfsQ_perm_enum [(root, f, "")] (by
      intro t ht
      rw [List.mem_singleton] at ht
      subst ht
      exact h)
    simpa [iterdir, enumTriple] using this
  · exact bfsQ_true_filter [(root, f, "")]
  · exact bfsQ_eq_join_levels false [(root, f, "")]

theorem c2_iterdir_bfs_coverage_witness :
    wfForest sampleTree = true ∧
    ((iterdir false 9 sampleTree).Perm (enumF 9 "" sampleTree) ∧
      iterdir true 9 sampleTree =
        (iterdir false 9 sampleTree).filter (fun e => !e.is_dir) ∧
      iterdir false 9 sampleTree =
        (levelsQ false [(9, sampleTree, "")]).join) :=
  ⟨by decide, c2_iterdir_bfs_coverage 9 sampleTree (by decide)⟩

/-- C3: an entry encountered during an incremental pass with cutoff `T` is
processed — produces exactly the effects the full-sync body would produce —
if and only if its `UpdateTime` is strictly greater than `T`; entries with
`UpdateTime ≤ T` are skipped with no side effect.  Over a whole listing the
incremental loop therefore equals the full loop restricted to the entries
newer than `T`; in particular, for entries with times `100, 200, 300` and
`T = 200`, exactly the entry with time `300` is processed. -/
theorem c3_incremental_filter (cfg : Config) (w : World) (T : Nat)
    (local_path pan : String) :
    (∀ e, entryEffsIncr cfg w T local_path pan e =
      if T < e.item.updateTime then entryEffsFull cfg w local_path pan e
      else []) ∧
    (∀ entries : List Entry,
      entries.flatMap (entryEffsIncr cfg w T local_path pan) =
        (entries.filter fun e => T < e.item.updateTime).flatMap
          (entryEffsFull cfg w local_path pan)) ∧
    (∀ e100 e200 e300 : Entry,
      e100.item.updateTime = 100 → e200.item.updateTime = 200 →
      e300.item.updateTime = 300 →
      [e100, e200, e300].flatMap (entryEffsIncr cfg w 200 local_path pan) =
        entryEffsFull cfg w local_path pan e300) := by
  have hpoint : ∀ e, entryEffsIncr cfg w T local_path pan e =
      if T < e.item.updateTime then entryEffsFull cfg w local_path pan e
      else [] := by
    intro e
    rw [entryEffsIncr, entryEffsFull]
    by_cases h : e.item.updateTime ≤ T
    · rw [if_pos h, if_neg (by omega)]
    · rw [if_neg h, if_pos (by omega)]
  have hlist : ∀ (T' : Nat) (entries : List Entry),
      entries.flatMap (entryEffsIncr cfg w T' local_path pan) =
        (entries.filter fun e => T' < e.item.updateTime).flatMap
          (entryEffsFull cfg w local_path pan) := by
    intro T' entries
    induction entries with
    | nil => rfl
    | cons e es ih =>
      rw [List.flatMap_cons, List.filter_cons]
      have hpt : entryEffsIncr cfg w T' local_path pan e =
          if T' < e.item.updateTime
          then entryEffsFull cfg w local_path pan e else [] := by
        rw [entryEffsIncr, entryEffsFull]
        by_cases h : e.item.updateTime ≤ T'
        · rw [if_pos h, if_neg (by omega)]
        · rw [if_neg h, if_pos (by omega)]
      by_cases h : T' < e.item.updateTime
      · rw [hpt, if_pos h, if_pos (by simpa using h), List.flatMap_cons, ih]
      · rw [hpt, if_neg h, if_neg (by simpa using h), List.nil_append, ih]
  refine ⟨hpoint, hlist T, ?_⟩
  intro e100 e200 e300 h100 h200 h300
  rw [hlist 200 [e100, e200, e300]]
  rw [List.filter_cons, List.filter_cons, List.filter_cons]
  rw [if_neg (by simp [h100]), if_neg (by simp [h200]),
    if_pos (by simp [h300])]
  rw [List.filter_nil, List.flatMap_cons, List.flatMap_nil, List.append_nil]

theorem c3_incremental_filter_witness :
    [entryOf 9 "" ⟨"f1.mkv", 0, 21, 1, "e1", "k1", 100⟩,
      entryOf 9 "" ⟨"f2.mkv", 0, 22, 1, "e2", "k2", 200⟩,
      entryOf 9 "" ⟨"f3.mkv", 0, 23, 1, "e3", "k3", 300⟩].flatMap
        (entryEffsIncr sampleCfg sampleWorld 200 "/l" "m") =
      entryEffsFull sampleCfg sampleWorld "/l" "m"
        (entryOf 9 "" ⟨"f3.mkv", 0, 23, 1, "e3", "k3", 300⟩) :=
  (c3_incremental_filter sampleCfg sampleWorld 200 "/l" "m").2.2 _ _ _
    rfl rfl rfl

/-- C7: when the plugin is disabled, or no path-pair is configured, or the
uid or the secret key is missing, both passes return before any remote or
filesystem effect: the result is `None` (not success), the effect list is
empty, and `last_sync_time` is unchanged. -/
theorem c7_precondition_abort (cfg : Config) (w : World)
    (tStart tEnd : Nat)
    (h : cfg.enabled = false ∨ cfg.full_sync_strm_paths = "" ∨
      cfg.uid = "" ∨ cfg.secret_key = "") :
    fullSync cfg w tEnd = ⟨none, [], cfg.last_sync_time⟩ ∧
    incrementalSync cfg w tStart tEnd = ⟨none, [], cfg.last_sync_time⟩ := by
  have hok : configOk cfg = false := by
    rw [configOk]
    rcases h with h | h | h | h <;> simp [h]
  rw [fullSync, incrementalSync, hok]
  exact ⟨rfl, rfl⟩

theorem c7_precondition_abort_witness :
    ((Config.mk false "123" "sk" "d" 1 "mkv" "nfo" "/l#/m" false 7).enabled
        = false ∨
      (Config.mk false "123" "sk" "d" 1 "mkv" "nfo" "/l#/m" false
        7).full_sync_strm_paths = "" ∨
      (Config.mk false "123" "sk" "d" 1 "mkv" "nfo" "/l#/m" false 7).uid
        = "" ∨
      (Config.mk false "123" "sk" "d" 1 "mkv" "nfo" "/l#/m" false
        7).secret_key = "") ∧
    (fullSync (Config.mk false "123" "sk" "d" 1 "mkv" "nfo" "/l#/m" false 7)
        sampleWorld 50 = ⟨none, [], 7⟩ ∧
      incrementalSync
        (Config.mk false "123" "sk" "d" 1 "mkv" "nfo" "/l#/m" false 7)
        sampleWorld 40 50 = ⟨none, [], 7⟩) :=
  ⟨Or.inl rfl,
    c7_precondition_abort _ sampleWorld 40 50 (Or.inl rfl)⟩

/-- C8: when `incremental_sync` is invoked with `last_sync_time = 0`, it
delegates entirely to `full_sync`: the effect trace, the resulting local
filesystem end-state, and the persisted `last_sync_time` all coincide with
those of running `full_sync` on the same drive (the return value of the
delegating call is `None`, as the source returns without a value). -/
theorem c8_first_run_fallback (cfg : Config) (w : World)
    (tStart tEnd : Nat) (h : cfg.last_sync_time = 0) :
    (incrementalSync cfg w tStart tEnd).effs = (fullSync cfg w tEnd).effs ∧
    endState (incrementalSync cfg w tStart tEnd).effs =
      endState (fullSync cfg w tEnd).effs ∧
    (incrementalSync cfg w tStart tEnd).last_sync_time =
      (fullSync cfg w tEnd).last_sync_time := by
  cases hok : configOk cfg with
  | false =>
    rw [incrementalSync, fullSync, hok]
    exact ⟨rfl, rfl, rfl⟩
  | true =>
    rw [incrementalSync, hok, h]
    exact ⟨rfl, rfl, rfl⟩

theorem c8_first_run_fallback_witness :
    ({ sampleCfg with last_sync_time := 0 }.last_sync_time = 0) ∧
    ((incrementalSync { sampleCfg with last_sync_time := 0 } sampleWorld
        4000 5000).effs =
      (fullSync { sampleCfg with last_sync_time := 0 } sampleWorld
        5000).effs ∧
      endState (incrementalSync { sampleCfg with last_sync_time := 0 }
        sampleWorld 4000 5000).effs =
        endState (fullSync { sampleCfg with last_sync_time := 0 }
          sampleWorld 5000).effs ∧
      (incrementalSync { sampleCfg with last_sync_time := 0 } sampleWorld
        4000 5000).last_sync_time =
        (fullSync { sampleCfg with last_sync_time := 0 } sampleWorld
          5000).last_sync_time) :=
  ⟨rfl, c8_first_run_fallback _ sampleWorld 4000 5000 rfl⟩

/-! ## Persist effects come only from the end-of-pass update -/

theorem entryEffsFull_no_persist (cfg : Config) (w : World)
    (local_path pan : String) (e : Entry) (t : Nat) :
    Eff.persist t ∉ entryEffsFull cfg w local_path pan e := by
  intro hmem
  rw [entryEffsFull] at hmem
  rcases hrel : relativeTo (parseP (pan ++ "/" ++ e.relpath)) (parseP pan)
    with _ | relp
  · rw [hrel] at hmem
    simp at hmem
  · rw [hrel] at hmem
    simp only [List.mem_cons] at hmem
    rcases hmem with h | h
    · exact Eff.noConfusion h
    · split_ifs at h <;> simp at h

theorem entryEffsIncr_no_persist (cfg : Config) (w : World) (T : Nat)
    (local_path pan : String) (e : Entry) (t : Nat) :
    Eff.persist t ∉ entryEffsIncr cfg w T local_path pan e := by
  intro hmem
  rw [entryEffsIncr] at hmem
  by_cases hT : e.item.updateTime ≤ T
  · rw [if_pos hT] at hmem
    simp at hmem
  · rw [if_neg hT] at hmem
    rcases hrel : relativeTo (parseP (pan ++ "/" ++ e.relpath)) (parseP pan)
      with _ | relp
    · rw [hrel] at hmem
      simp at hmem
    · rw [hrel] at hmem
      simp only [List.mem_cons] at hmem
      rcases hmem with h | h
      · exact Eff.noConfusion h
      · split_ifs at h <;> simp at h

theorem pySplitHash1_shape (p : String) :
    (∃ a, pySplitHash1 p = [a]) ∨ ∃ a b, pySplitHash1 p = [a, b] := by
  rw [pySplitHash1]
  rcases splitOnceChar '#' p.data with _ | ⟨x, y⟩
  · exact Or.inl ⟨p, rfl⟩
  · exact Or.inr ⟨_, _, rfl⟩

theorem pairEffs_eq_of_split (w : World)
    (entryF : String → String → Entry → List Eff) (p a b : String)
    (h1 : ¬pyStrip p = "") (hs : pySplitHash1 p = [a, b]) :
    pairEffs w entryF p =
      if w.localRootOk a then
        some (Eff.mkdirRoot a ::
          (if pyStripSlash b = "" then []
           else
             match resolveParts (0, w.drive)
                 (pySplit (pyStripSlash b) '/') with
             | none => []
             | some (pid, sub) =>
               (bfsQ true [(pid, sub, "")]).flatMap
                 (entryF a (pyStripSlash b))))
      else none := by
  rw [pairEffs, if_neg h1, hs]

theorem pairEffs_eq_single (w : World)
    (entryF : String → String → Entry → List Eff) (p a : String)
    (h1 : ¬pyStrip p = "") (hs : pySplitHash1 p = [a]) :
    pairEffs w entryF p = some [] := by
  rw [pairEffs, if_neg h1, hs]

theorem pairEffs_no_persist (w : World)
    (entryF : String → String → Entry → List Eff)
    (hent : ∀ l p e t, Eff.persist t ∉ entryF l p e) (p : String) (t : Nat)
    (effs : List Eff) (h : pairEffs w entryF p = some effs) :
    Eff.persist t ∉ effs := by
  intro hmem
  by_cases h1 : pyStrip p = ""
  · rw [pairEffs, if_pos h1] at h
    injection h with h'
    subst h'
    simp at hmem
  · rcases pySplitHash1_shape p with ⟨a, hs⟩ | ⟨a, b, hs⟩
    · rw [pairEffs_eq_single w entryF p a h1 hs] at h
      injection h with h'
      subst h'
      simp at hmem
    · rw [pairEffs_eq_of_split w entryF p a b h1 hs] at h
      by_cases h2 : w.localRootOk a = true
      · rw [if_pos h2] at h
        injection h with h'
        subst h'
        simp only [List.mem_cons] at hmem
        rcases hmem with hh | hh
        · exact Eff.noConfusion hh
        · by_cases h3 : pyStripSlash b = ""
          · rw [if_pos h3] at hh
            simp at hh
          · rw [if_neg h3] at hh
            rcases hres : resolveParts (0, w.drive)
                (pySplit (pyStripSlash b) '/') with _ | ⟨pid, sub⟩
            · rw [hres] at hh
              simp at hh
            · rw [hres] at hh
              rcases List.mem_flatMap.mp hh with ⟨e, _, he⟩
              exact hent a (pyStripSlash b) e t he
      · rw [if_neg h2] at h
        exact Option.noConfusion h

theorem runPairs_no_persist (w : World)
    (entryF : String → String → Entry → List Eff)
    (hent : ∀ l p e t, Eff.persist t ∉ entryF l p e) :
    ∀ (ps : List String) (t : Nat), Eff.persist t ∉ (runPairs w entryF ps).1 := by
  intro ps
  induction ps with
  | nil => intro t hmem; simp [runPairs] at hmem
  | cons p rest ih =>
    intro t hmem
    rw [runPairs] at hmem
    rcases hp : pairEffs w entryF p with _ | effs <;> rw [hp] at hmem
    · simp at hmem
    · rcases hr : runPairs w entryF rest with ⟨more, crashed⟩
      rw [hr] at hmem
      simp only [List.mem_append] at hmem
      rcases hmem with h | h
      · exact pairEffs_no_persist w entryF hent p t effs hp h
      · have := ih t
        rw [hr] at this
        exact this h

/-- C4: when a pass finishes without a top-level exception it returns
success, sets `last_sync_time` and appends the persistence effect —
`full_sync` with the clock value sampled at the end of the pass,
`incremental_sync` (in its proper, `last_sync_time ≠ 0` mode) with the
clock value captured before any per-pair work; any non-success outcome
(precondition abort or top-level exception) leaves `last_sync_time`
unchanged and persists nothing. -/
theorem c4_last_sync_update (cfg : Config) (w : World) (tStart tEnd : Nat) :
    ((fullSync cfg w tEnd).result = some true →
      (fullSync cfg w tEnd).last_sync_time = tEnd ∧
      Eff.persist tEnd ∈ (fullSync cfg w tEnd).effs) ∧
    ((fullSync cfg w tEnd).result ≠ some true →
      (fullSync cfg w tEnd).last_sync_time = cfg.last_sync_time ∧
      ∀ t, Eff.persist t ∉ (fullSync cfg w tEnd).effs) ∧
    (cfg.last_sync_time ≠ 0 →
      ((incrementalSync cfg w tStart tEnd).result = some true →
        (incrementalSync cfg w tStart tEnd).last_sync_time = tStart ∧
        Eff.persist tStart ∈ (incrementalSync cfg w tStart tEnd).effs) ∧
      ((incrementalSync cfg w tStart tEnd).result ≠ some true →
        (incrementalSync cfg w tStart tEnd).last_sync_time =
          cfg.last_sync_time ∧
        ∀ t, Eff.persist t ∉ (incrementalSync cfg w tStart tEnd).effs)) := by
  have hfull : ((fullSync cfg w tEnd).result = some true →
      (fullSync cfg w tEnd).last_sync_time = tEnd ∧
      Eff.persist tEnd ∈ (fullSync cfg w tEnd).effs) ∧
      ((fullSync cfg w tEnd).result ≠ some true →
      (fullSync cfg w tEnd).last_sync_time = cfg.last_sync_time ∧
      ∀ t, Eff.persist t ∉ (fullSync cfg w tEnd).effs) := by
    rw [fullSync]
    cases hok : configOk cfg with
    | false =>
      rw [if_pos (by decide)]
      refine ⟨fun hcontra => ?_, fun _ => ⟨rfl, fun t hmem => ?_⟩⟩
      · simp at hcontra
      · simp at hmem
    | true =>
      rw [if_neg (by decide)]
      rcases hr : runPairs w (entryEffsFull cfg w)
          (pySplit (pyStrip cfg.full_sync_strm_paths) '\n')
        with ⟨effs, crashed⟩
      cases crashed with
      | true =>
        refine ⟨fun hcontra => ?_, fun _ => ⟨rfl, fun t hmem => ?_⟩⟩
        · simp at hcontra
        · have := runPairs_no_persist w (entryEffsFull cfg w)
            (fun l p e t => entryEffsFull_no_persist cfg w l p e t)
            (pySplit (pyStrip cfg.full_sync_strm_paths) '\n') t
          rw [hr] at this
          exact this hmem
      | false =>
        refine ⟨fun _ => ⟨rfl, ?_⟩, fun hcontra => absurd rfl hcontra⟩
        exact List.mem_append_right _ (List.mem_singleton_self _)
  refine ⟨hfull.1, hfull.2, fun hT => ?_⟩
  rw [incrementalSync]
  cases hok : configOk cfg with
  | false =>
    rw [if_pos (by decide)]
    refine ⟨fun hcontra => ?_, fun _ => ⟨rfl, fun t hmem => ?_⟩⟩
    · simp at hcontra
    · simp at hmem
  | true =>
    rw [if_neg (by decide), if_neg hT]
    rcases hr : runPairs w (entryEffsIncr cfg w cfg.last_sync_time)
        (pySplit (pyStrip cfg.full_sync_strm_paths) '\n')
      with ⟨effs, crashed⟩
    cases crashed with
    | true =>
      refine ⟨fun hcontra => ?_, fun _ => ⟨rfl, fun t hmem => ?_⟩⟩
      · simp at hcontra
      · have := runPairs_no_persist w (entryEffsIncr cfg w cfg.last_sync_time)
          (fun l p e t => entryEffsIncr_no_persist cfg w cfg.last_sync_time
            l p e t)
          (pySplit (pyStrip cfg.full_sync_strm_paths) '\n') t
        rw [hr] at this
        exact this hmem
    | false =>
      refine ⟨fun _ => ⟨rfl, ?_⟩, fun hcontra => absurd rfl hcontra⟩
      exact List.mem_append_right _ (List.mem_singleton_self _)

theorem c4_last_sync_update_witness :
    (fullSync sampleCfg sampleWorld 5000).result = some true ∧
    (fullSync sampleCfg sampleWorld 5000).last_sync_time = 5000 ∧
    Eff.persist 5000 ∈ (fullSync sampleCfg sampleWorld 5000).effs ∧
    (incrementalSync sampleCfg sampleWorld 4000 5000).result = some true ∧
    (incrementalSync sampleCfg sampleWorld 4000 5000).last_sync_time = 4000 ∧
    Eff.persist 4000 ∈ (incrementalSync sampleCfg sampleWorld 4000 5000).effs := by
  have h := c4_last_sync_update sampleCfg sampleWorld 4000 5000
  have h1 := h.1 (by decide)
  have h2 := (h.2.2 (by decide)).1 (by decide)
  exact ⟨by decide, h1.1, h1.2, by decide, h2.1, h2.2⟩

/-- C5 (counterexample to the claim as stated): in the sync pass
implemented by `FullSyncStrmHelper.generate_strm_files`, a
remote-directory-resolution failure in the first configured pair makes the
method return `False` immediately: the second pair — which, run on its own,
would produce a pointer file — is never processed.  One failing pair does
prevent the remaining pairs from running there. -/
theorem c5_counterexample_helper_aborts :
    generate_strm_files sampleHelperCfg sampleHelperWorld "l1#p1\nl2#p2" =
      .fail [] ∧
    generate_strm_files sampleHelperCfg sampleHelperWorld "l2#p2" =
      .ok [Eff.mkdirTree ⟨"", ["l2"]⟩,
        Eff.writeStrm ⟨"", ["l2", "a.strm"]⟩
          (helperStrmUrl sampleHelperCfg itemA)] := by
  constructor
  · rfl
  · rfl

/-- C5 (amended): in `full_sync_strm_files` and `incremental_sync_files`
(whose shared pair loop is `runPairs`), a pair whose remote directory
resolution fails is caught after creating its local root directory and
contributes no other effect, and the remaining pairs are processed exactly
as they would otherwise be; in `FullSyncStrmHelper.generate_strm_files`,
however, a resolution or traversal error makes the pass return `False`,
skipping every remaining pair. -/
theorem c5_pair_isolation (w : World)
    (entryF : String → String → Entry → List Eff) (p : String)
    (rest : List String) (local_path pan_path : String)
    (h1 : ¬pyStrip p = "")
    (h2 : pySplitHash1 p = [local_path, pan_path])
    (h3 : w.localRootOk local_path = true)
    (h4 : resolveParts (0, w.drive)
      (pySplit (pyStripSlash pan_path) '/') = none) :
    pairEffs w entryF p = some [Eff.mkdirRoot local_path] ∧
    runPairs w entryF (p :: rest) =
      (Eff.mkdirRoot local_path :: (runPairs w entryF rest).1,
        (runPairs w entryF rest).2) := by
  have hpair : pairEffs w entryF p = some [Eff.mkdirRoot local_path] := by
    rw [pairEffs_eq_of_split w entryF p local_path pan_path h1 h2, if_pos h3]
    by_cases h5 : pyStripSlash pan_path = ""
    · rw [if_pos h5]
    · rw [if_neg h5, h4]
  refine ⟨hpair, ?_⟩
  rw [runPairs, hpair]
  rcases runPairs w entryF rest with ⟨more, crashed⟩
  rfl

theorem c5_pair_isolation_witness :
    (¬pyStrip "/l#/nope" = "" ∧
      pySplitHash1 "/l#/nope" = ["/l", "/nope"] ∧
      sampleWorld.localRootOk "/l" = true ∧
      resolveParts (0, sampleWorld.drive)
        (pySplit (pyStripSlash "/nope") '/') = none) ∧
    (pairEffs sampleWorld (entryEffsFull sampleCfg sampleWorld) "/l#/nope" =
      some [Eff.mkdirRoot "/l"] ∧
    runPairs sampleWorld (entryEffsFull sampleCfg sampleWorld)
        ("/l#/nope" :: ["/l#/m/d"]) =
      (Eff.mkdirRoot "/l" ::
        (runPairs sampleWorld (entryEffsFull sampleCfg sampleWorld)
          ["/l#/m/d"]).1,
        (runPairs sampleWorld (entryEffsFull sampleCfg sampleWorld)
          ["/l#/m/d"]).2)) :=
  ⟨⟨by decide, by decide, rfl, by decide⟩,
    c5_pair_isolation sampleWorld (entryEffsFull sampleCfg sampleWorld)
      "/l#/nope" ["/l#/m/d"] "/l" "/nope" (by decide) (by decide) rfl
      (by decide)⟩

/-- C10: remote-root resolution inspects only the first page of a parent's
listing (one `fs_list` call with `limit 100, next 0`): if no directory
entry with the wanted name occurs among the first 100 items, the segment
resolves to "not found" (`none`) — even when such a directory exists
further down the listing — and the whole path through it fails, aborting
that path-pair. -/
theorem c10_resolution_first_page (part : String) (f : Forest) (pid : Nat)
    (restParts : List String) (hne : ¬part = "")
    (hfp : ∀ p ∈ (topItems f).take 100,
      ¬(p.1.fileName = part ∧ p.1.type ≠ 0)) :
    findDirFirstPage part f = none ∧
    resolveParts (pid, f) (part :: restParts) = none := by
  have h1 : findDirFirstPage part f = none := by
    rw [findDirFirstPage, List.findSome?_eq_none]
    intro x hx
    have hcontra := hfp x hx
    by_cases hb : (x.1.fileName = part && x.1.type != 0) = true
    · exfalso
      apply hcontra
      rw [Bool.and_eq_true, decide_eq_true_eq, bne_iff_ne] at hb
      exact hb
    · rw [if_neg hb]
  refine ⟨h1, ?_⟩
  rw [resolveParts, if_neg hne]
  rw [show (pid, f).2 = f from rfl, h1]

def c10Filler : Item := ⟨"x", 1, 7, 0, "", "", 0⟩

def c10Target : Item := ⟨"t", 1, 8, 0, "", "", 0⟩

/-- 100 directories named `x`, then the wanted directory `t` as item 101 -/
def c10Forest : Forest :=
  replicateForest 100 c10Filler (.cons c10Target .nil .nil)

theorem c10_resolution_first_page_witness :
    (¬(("t" : String) = "") ∧
      (∀ p ∈ (topItems c10Forest).take 100,
        ¬(p.1.fileName = "t" ∧ p.1.type ≠ 0)) ∧
      (topItems c10Forest).any
        (fun p => p.1.fileName = "t" && p.1.type != 0) = true) ∧
    (findDirFirstPage "t" c10Forest = none ∧
      resolveParts (0, c10Forest) ["t", "deeper"] = none) :=
  ⟨⟨by decide, by decide, by decide⟩,
    c10_resolution_first_page "t" c10Forest 0 ["deeper"] (by decide)
      (by decide)⟩

/-- C1 (counterexample to the claim as stated): with configured uid `%41`
and domain `vip.123pan.cn`, the produced URL is *not*
`domain + request_path + "?auth_key=" + auth_key` with
`request_path = "/" + uid + "/" + url_decode(path)`: the source prefixes
the scheme-less domain with `https://` and URL-decodes the whole
`"/" + uid + "/" + path` string (decoding the `%41` inside the uid), not
the path component alone. -/
theorem c1_counterexample_url_format :
    generate_auth_url "%41" "sk" "vip.123pan.cn" 1 1000 42 "a.mkv" ≠
      "vip.123pan.cn" ++ ("/" ++ "%41" ++ "/" ++ percentDecode "a.mkv") ++
        "?auth_key=" ++
        (toString (1000 + 1 * 60) ++ "-" ++ toString 42 ++ "-" ++ "%41" ++
          "-" ++
          md5Hex (("/" ++ "%41" ++ "/" ++ percentDecode "a.mkv") ++ "-" ++
            toString (1000 + 1 * 60) ++ "-" ++ toString 42 ++ "-" ++ "%41" ++
            "-" ++ "sk")) := by
  decide

/-- C1 (amended): for every configured uid, secret key, domain and expiry,
and for the clock value `now` and nonce (an integer in `[0, 2^31-1]`)
drawn during the call, the signed URL has exactly the form
`D + request_path + "?auth_key=" + auth_key`, where `D` is the configured
domain with trailing `/` stripped and `https://` prepended unless a scheme
is already present, `request_path = url_decode("/" + uid + "/" + path)`,
`expire_at = now + expire_minutes * 60`, the signature is the lowercase
hex MD5 digest of
`request_path + "-" + expire_at + "-" + nonce + "-" + uid + "-" +
secret_key`, and
`auth_key = expire_at + "-" + nonce + "-" + uid + "-" + signature`. -/
theorem c1_auth_url_format (uid secret_key custom_domain : String)
    (expire_minutes now nonce : Nat) (file_path : String)
    (hn : nonce ≤ 2 ^ 31 - 1) :
    generate_auth_url uid secret_key custom_domain expire_minutes now nonce
        file_path =
      normDomain custom_domain ++
        percentDecode ("/" ++ uid ++ "/" ++ file_path) ++ "?auth_key=" ++
        (toString (now + expire_minutes * 60) ++ "-" ++ toString nonce ++
          "-" ++ uid ++ "-" ++
          md5Hex (percentDecode ("/" ++ uid ++ "/" ++ file_path) ++ "-" ++
            toString (now + expire_minutes * 60) ++ "-" ++ toString nonce ++
            "-" ++ uid ++ "-" ++ secret_key)) := rfl

theorem c1_auth_url_format_witness :
    (42 : Nat) ≤ 2 ^ 31 - 1 ∧
    generate_auth_url "123" "sk" "https://vip.123pan.cn" 1 1000 42
        "m/d/a.mkv" =
      normDomain "https://vip.123pan.cn" ++
        percentDecode ("/" ++ "123" ++ "/" ++ "m/d/a.mkv") ++ "?auth_key=" ++
        (toString (1000 + 1 * 60) ++ "-" ++ toString 42 ++ "-" ++ "123" ++
          "-" ++
          md5Hex (percentDecode ("/" ++ "123" ++ "/" ++ "m/d/a.mkv") ++
            "-" ++ toString (1000 + 1 * 60) ++ "-" ++ toString 42 ++ "-" ++
            "123" ++ "-" ++ "sk")) :=
  ⟨by decide,
    c1_auth_url_format "123" "sk" "https://vip.123pan.cn" 1 1000 42
      "m/d/a.mkv" (by decide)⟩

/-! ## Path algebra for the round-trip claim -/

theorem splitChar_append_sep (sep : Char) (xs ys : List Char) :
    splitChar sep (xs ++ sep :: ys) = splitChar sep xs ++ splitChar sep ys := by
  induction xs with
  | nil => simp [splitChar]
  | cons c rest ih =>
    by_cases hc : c = sep
    · subst hc
      have e1 : splitChar c (c :: (rest ++ c :: ys)) =
          [] :: splitChar c (rest ++ c :: ys) := by
        rw [splitChar, if_pos rfl]
      have e2 : splitChar c (c :: rest) = [] :: splitChar c rest := by
        rw [splitChar, if_pos rfl]
      rw [List.cons_append, e1, e2, ih]
      rfl
    · have e1 : splitChar sep (c :: (rest ++ sep :: ys)) =
          match splitChar sep (rest ++ sep :: ys) with
          | h :: t => (c :: h) :: t
          | [] => [[c]] := by
        rw [splitChar, if_neg hc]
      have e2 : splitChar sep (c :: rest) =
          match splitChar sep rest with
          | h :: t => (c :: h) :: t
          | [] => [[c]] := by
        rw [splitChar, if_neg hc]
      rw [List.cons_append, e1, e2, ih]
      rcases h0 : splitChar sep rest with _ | ⟨h₀, t₀⟩
      · exact absurd h0 (splitChar_ne_nil _ _)
      · rfl

theorem data_concat_slash (pan rel : String) :
    (pan ++ "/" ++ rel).data = pan.data ++ '/' :: rel.data := by
  rw [String.data_append, String.data_append, List.append_assoc]
  rfl

theorem segsOf_concat (pan rel : String) :
    segsOf (pan ++ "/" ++ rel) = segsOf pan ++ segsOf rel := by
  rw [segsOf, segsOf, segsOf, pySplit, pySplit, pySplit, data_concat_slash,
    splitChar_append_sep, List.map_append, List.filter_append]

theorem leadSlashes_cons_ne (c : Char) (l : List Char) (hc : ¬c = '/') :
    leadSlashes (c :: l) = 0 := by
  rw [leadSlashes.eq_def]
  split
  · next heq => exact absurd (List.cons.inj heq).1 hc
  · rfl

theorem leadSlashes_append (l r : List Char)
    (h : l.any (fun c => decide (c ≠ '/')) = true) :
    leadSlashes (l ++ r) = leadSlashes l := by
  induction l with
  | nil => simp at h
  | cons c rest ih =>
    by_cases hc : c = '/'
    · subst hc
      rw [List.cons_append, leadSlashes, leadSlashes]
      have h' : rest.any (fun c => decide (c ≠ '/')) = true := by
        simpa using h
      rw [ih h']
    · rw [List.cons_append, leadSlashes_cons_ne c (rest ++ r) hc,
        leadSlashes_cons_ne c rest hc]

theorem anchorOf_concat (pan rel : String) (h : hasNonSlash pan = true) :
    anchorOf (pan ++ "/" ++ rel) = anchorOf pan := by
  rw [anchorOf, anchorOf, data_concat_slash,
    leadSlashes_append pan.data ('/' :: rel.data) (by
      rw [hasNonSlash] at h
      exact h)]

theorem relativeTo_append (a : String) (p r : List String) :
    relativeTo ⟨a, p ++ r⟩ ⟨a, p⟩ = some ⟨"", r⟩ := by
  rw [relativeTo]
  rw [if_pos (by
    simp [List.isPrefixOf_iff_prefix, List.prefix_append])]
  rw [show (⟨a, p ++ r⟩ : PPath).parts.drop (⟨a, p⟩ : PPath).parts.length
    = r from List.drop_left p r]

theorem stringEq_of_data {s t : String} (h : s.data = t.data) : s = t := by
  cases s with
  | mk a =>
    cases t with
    | mk b => exact congrArg String.mk h

theorem joinSegs_splitChar (l : List Char) :
    joinSegs ((splitChar '/' l).map String.mk) = String.mk l := by
  induction l with
  | nil => rfl
  | cons c rest ih =>
    rcases h0 : splitChar '/' rest with _ | ⟨h₀, t₀⟩
    · exact absurd h0 (splitChar_ne_nil _ _)
    · rw [h0, List.map_cons] at ih
      by_cases hc : c = '/'
      · subst hc
        rw [splitChar, if_pos rfl, h0, List.map_cons, List.map_cons]
        show "" ++ "/" ++ joinSegs (String.mk h₀ :: t₀.map String.mk) =
          String.mk ('/' :: rest)
        apply stringEq_of_data
        rw [String.data_append, String.data_append, congrArg String.data ih]
        rfl
      · rw [splitChar, if_neg hc, h0, List.map_cons]
        cases t₀ with
        | nil =>
          show String.mk (c :: h₀) = String.mk (c :: rest)
          have heq : h₀ = rest := stringMk_inj (by simpa [joinSegs] using ih)
          rw [heq]
        | cons s₀ t₁ =>
          rw [List.map_cons] at ih ⊢
          show String.mk (c :: h₀) ++ "/" ++
            joinSegs (String.mk s₀ :: t₁.map String.mk) = String.mk (c :: rest)
          apply stringEq_of_data
          have ih' : String.mk h₀ ++ "/" ++
              joinSegs (String.mk s₀ :: t₁.map String.mk) =
              String.mk rest := ih
          have hdata := congrArg String.data ih'
          rw [String.data_append, String.data_append, List.append_assoc]
            at hdata
          rw [String.data_append, String.data_append, List.append_assoc]
          exact congrArg (fun z => c :: z) hdata

theorem stringMk_data (s : String) : String.mk s.data = s := by
  cases s
  rfl

theorem segsOf_of_normal (rel : String) (h : isNormalRel rel = true) :
    segsOf rel = pySplit rel '/' := by
  rw [segsOf]
  apply List.filter_eq_self.mpr
  intro a ha
  rw [isNormalRel, List.all_eq_true] at h
  rw [pySplit, List.mem_map] at ha
  obtain ⟨seg, hseg, hmk⟩ := ha
  have := h seg hseg
  rw [Bool.and_eq_true] at this
  subst hmk
  simp only [ne_eq, Bool.and_eq_true, decide_eq_true_eq]
  constructor
  · intro hcontra
    have hseg0 : seg = [] := stringMk_inj hcontra
    subst hseg0
    simp at this
  · intro hcontra
    have hdot : seg = ['.'] := stringMk_inj hcontra
    rcases this with ⟨_, h2⟩
    rw [decide_eq_true_eq] at h2
    exact h2 hdot

theorem segsOf_ne_nil_of_normal (rel : String)
    (h : isNormalRel rel = true) : segsOf rel ≠ [] := by
  rw [segsOf_of_normal rel h, pySplit]
  intro hcontra
  rw [List.map_eq_nil] at hcontra
  exact splitChar_ne_nil '/' rel.data hcontra

theorem renderP_of_normal (rel : String) (h : isNormalRel rel = true) :
    renderP ⟨"", segsOf rel⟩ = rel := by
  rw [renderP]
  rw [if_neg (by
    simp only [Bool.and_eq_true, decide_eq_true_eq]
    intro hcontra
    exact segsOf_ne_nil_of_normal rel h hcontra.2)]
  show joinSegs (segsOf rel) = rel
  rw [segsOf_of_normal rel h, pySplit, joinSegs_splitChar, stringMk_data]

/-- C9 (counterexample to the claim as stated): the round trip is not the
identity on every relative path — `pathlib` normalises away trailing
slashes (and empty or `"."` segments), so resolving `"x/"` under any roots
and stripping the local root again yields `"x"`, not `"x/"`. -/
theorem c9_counterexample_roundtrip :
    roundtripRel "/l" "m" "x/" ≠ some "x/" := by
  decide

/-- C9 (amended): for every `(local_root, remote_root, relative_path)`
where the remote root contains a non-slash character and the relative path
is in normal form (splitting on `/` yields only nonempty, non-`"."`
segments — no leading, trailing or doubled slash), resolving the local
target path (joining `local_root` with `relative_path` taken relative to
`remote_root`, exactly as source lines 1278-1279 do) and then stripping
the `local_root` prefix yields back exactly `relative_path`; for other
relative paths the round trip returns the normalised form instead. -/
theorem c9_roundtrip_normal (local_root pan rel : String)
    (hpan : hasNonSlash pan = true) (hrel : isNormalRel rel = true) :
    roundtripRel local_root pan rel = some rel := by
  have hparse : parseP (pan ++ "/" ++ rel) =
      ⟨anchorOf pan, segsOf pan ++ segsOf rel⟩ := by
    rw [parseP, anchorOf_concat pan rel hpan, segsOf_concat]
  have hrel1 : relativeTo (parseP (pan ++ "/" ++ rel)) (parseP pan) =
      some ⟨"", segsOf rel⟩ := by
    rw [hparse, parseP]
    exact relativeTo_append _ _ _
  rw [roundtripRel, resolveLocal, hrel1]
  have hjoin : joinP (parseP local_root) ⟨"", segsOf rel⟩ =
      ⟨(parseP local_root).anchor,
        (parseP local_root).parts ++ segsOf rel⟩ := by
    rw [joinP, if_pos rfl]
  show (relativeTo (joinP (parseP local_root) ⟨"", segsOf rel⟩)
      (parseP local_root)).map renderP = some rel
  rw [hjoin]
  have hrel2 : relativeTo
      ⟨(parseP local_root).anchor,
        (parseP local_root).parts ++ segsOf rel⟩ (parseP local_root) =
      some ⟨"", segsOf rel⟩ :=
    relativeTo_append (parseP local_root).anchor (parseP local_root).parts
      (segsOf rel)
  rw [hrel2]
  show some (renderP ⟨"", segsOf rel⟩) = some rel
  rw [renderP_of_normal rel hrel]

theorem c9_roundtrip_normal_witness :
    (hasNonSlash "m/n" = true ∧ isNormalRel "a/b.mkv" = true) ∧
    roundtripRel "/l" "m/n" "a/b.mkv" = some "a/b.mkv" :=
  ⟨⟨by decide, by decide⟩,
    c9_roundtrip_normal "/l" "m/n" "a/b.mkv" (by decide) (by decide)⟩

/-- C6 (counterexample to the claim as stated): the extension comparison is
*not* case-insensitive everywhere the spec cites it —
`FullSyncStrmHelper` builds its extension lists without `.lower()` and
compares the raw `Path.suffix` against them, so with configured streamable
extension `mkv` the helper skips `MOVIE.MKV` (no effect) but writes a
pointer file for `movie.mkv`: the two names do not classify identically
there. -/
theorem c6_counterexample_case_sensitivity :
    helperEntry sampleHelperCfg sampleHelperWorld "/l" "p"
        (entryOf 9 "" ⟨"MOVIE.MKV", 0, 3, 100, "h", "k", 0⟩) = some [] ∧
    helperEntry sampleHelperCfg sampleHelperWorld "/l" "p"
        (entryOf 9 "" ⟨"movie.mkv", 0, 3, 100, "h", "k", 0⟩) ≠ some [] := by
  exact ⟨rfl, by decide⟩

/-- C6 (amended): in the sync passes (`full_sync_strm_files` /
`incremental_sync_files`) every filename is assigned exactly one of the
three categories — streamable iff its lower-cased suffix is in the
media-extension set, sidecar iff it is not there but is in the
data-extension set, ignored iff in neither — and the comparison is
case-insensitive (lower-casing the filename never changes the category,
so `MOVIE.MKV` classifies identically to `movie.mkv` there); in
`FullSyncStrmHelper.generate_strm_files`, however, the comparison is
case-sensitive and the two spellings are treated differently. -/
theorem c6_classification (m d : List String) (n : String) :
    (classifyExt m d n = .streamable ↔ m.contains (extOf n) = true) ∧
    (classifyExt m d n = .sidecar ↔
      (m.contains (extOf n) = false ∧ d.contains (extOf n) = true)) ∧
    (classifyExt m d n = .ignored ↔
      (m.contains (extOf n) = false ∧ d.contains (extOf n) = false)) ∧
    classifyExt m d (pyLower n) = classifyExt m d n ∧
    helperEntry sampleHelperCfg sampleHelperWorld "/l" "p"
        (entryOf 9 "" ⟨"MOVIE.MKV", 0, 3, 100, "h", "k", 0⟩) ≠
      helperEntry sampleHelperCfg sampleHelperWorld "/l" "p"
        (entryOf 9 "" ⟨"movie.mkv", 0, 3, 100, "h", "k", 0⟩) := by
  refine ⟨?_, ?_, ?_, ?_, ?_⟩
  · rw [classifyExt]
    by_cases hm : extOf n ∈ m
    · simp [hm]
    · by_cases hd : extOf n ∈ d
      · simp [hm, hd]
      · simp [hm, hd]
  · rw [classifyExt]
    by_cases hm : extOf n ∈ m
    · simp [hm]
    · by_cases hd : extOf n ∈ d
      · simp [hm, hd]
      · simp [hm, hd]
  · rw [classifyExt]
    by_cases hm : extOf n ∈ m
    · simp [hm]
    · by_cases hd : extOf n ∈ d
      · simp [hm, hd]
      · simp [hm, hd]
  · rw [classifyExt, classifyExt, extOf_pyLower]
  · decide

theorem c6_classification_witness :
    (classifyExt [".mkv"] [".nfo"] "MOVIE.MKV" = .streamable ↔
      ([".mkv"] : List String).contains (extOf "MOVIE.MKV") = true) ∧
    (classifyExt [".mkv"] [".nfo"] "MOVIE.MKV" = .sidecar ↔
      (([".mkv"] : List String).contains (extOf "MOVIE.MKV") = false ∧
        ([".nfo"] : List String).contains (extOf "MOVIE.MKV") = true)) ∧
    (classifyExt [".mkv"] [".nfo"] "MOVIE.MKV" = .ignored ↔
      (([".mkv"] : List String).contains (extOf "MOVIE.MKV") = false ∧
        ([".nfo"] : List String).contains (extOf "MOVIE.MKV") = false)) ∧
    classifyExt [".mkv"] [".nfo"] (pyLower "MOVIE.MKV") =
      classifyExt [".mkv"] [".nfo"] "MOVIE.MKV" ∧
    helperEntry sampleHelperCfg sampleHelperWorld "/l" "p"
        (entryOf 9 "" ⟨"MOVIE.MKV", 0, 3, 100, "h", "k", 0⟩) ≠
      helperEntry sampleHelperCfg sampleHelperWorld "/l" "p"
        (entryOf 9 "" ⟨"movie.mkv", 0, 3, 100, "h", "k", 0⟩) :=
  c6_classification [".mkv"] [".nfo"] "MOVIE.MKV"

end P123
